import Mathlib

/-!
A shallow embedding of the multi-chain deposit tracker implemented in
`src/safejet-exchange-api/src/wallet/services/deposit-tracking.service.ts`
(`DepositTrackingService`).  Pure computations of the service (checkpoint key
construction, confirmation arithmetic, amount formatting) become Lean
functions; the stateful parts (the deposit table, the wallet-balance table,
the `system_settings` key-value store and the credit events performed by
`updateWalletBalance`) become explicit state passing over `TrackerState`.
JavaScript `number` heights are modelled as `Nat`/`Int` (block heights stay far
below 2^53, so JS number arithmetic on them is exact); amounts stored by the
service are decimal strings, modelled as `String`; exact decimal arithmetic of
`decimal.js` is modelled as `Rat` arithmetic on parsed decimal strings.
-/

namespace DepositTracking

/-! ## Decimal strings

`saveLastProcessedBlock` persists `blockNumber.toString()` and
`getLastProcessedBlock` reads it back with `parseInt`.  We model decimal
printing and parsing of naturals directly (fuel-based so that the kernel can
evaluate them). -/

/-- Character for a single decimal digit (`d < 10`), as produced by JavaScript
number-to-string conversion. -/
def digitChar (d : Nat) : Char := Char.ofNat (48 + d)

/-- Numeric value of a decimal digit character, as consumed by `parseInt`. -/
def charDigit (c : Char) : Nat := c.toNat - 48

/-- Little-endian decimal digits of `n`, structurally recursive on a fuel
argument; `fuel ≥ n` suffices since a number needs no more digits than its
own value. -/
def toDigitsLE : Nat → Nat → List Nat
  | 0, _ => []
  | fuel + 1, n => if n = 0 then [] else n % 10 :: toDigitsLE fuel (n / 10)

/-- Value of a little-endian decimal digit list. -/
def ofDigitsLE : List Nat → Nat
  | [] => 0
  | d :: ds => d + 10 * ofDigitsLE ds

/-- JavaScript `Number.prototype.toString` on a natural number. -/
def natToString (n : Nat) : String :=
  if n = 0 then "0" else String.mk ((toDigitsLE n n).reverse.map digitChar)

/-- JavaScript `parseInt` on a decimal-digit string (the only shape the service
ever writes). -/
def parseNat (s : String) : Nat :=
  ofDigitsLE ((s.data.map charDigit).reverse)

theorem ofDigitsLE_toDigitsLE : ∀ (fuel : Nat) {n : Nat}, n ≤ fuel →
    ofDigitsLE (toDigitsLE fuel n) = n
  | 0, n => by
    intro h
    have hn : n = 0 := by omega
    simp [toDigitsLE, hn, ofDigitsLE]
  | f + 1, n => by
    intro h
    by_cases h0 : n = 0
    · simp [toDigitsLE, h0, ofDigitsLE]
    · have hdiv : n / 10 < n := Nat.div_lt_self (Nat.pos_of_ne_zero h0) (by norm_num)
      have hrec : ofDigitsLE (toDigitsLE f (n / 10)) = n / 10 :=
        ofDigitsLE_toDigitsLE f (by omega)
      simp only [toDigitsLE, h0, if_false, ofDigitsLE, hrec]
      omega

theorem toDigitsLE_lt_ten : ∀ (fuel : Nat) {n : Nat}, ∀ d ∈ toDigitsLE fuel n, d < 10
  | 0, n => by simp [toDigitsLE]
  | f + 1, n => by
    by_cases h0 : n = 0
    · simp [toDigitsLE, h0]
    · simp only [toDigitsLE, h0, if_false, List.mem_cons]
      rintro d (rfl | hd)
      · exact Nat.mod_lt _ (by norm_num)
      · exact toDigitsLE_lt_ten f d hd

theorem charDigit_digitChar {d : Nat} (h : d < 10) : charDigit (digitChar d) = d := by
  interval_cases d <;> rfl

/-- Round trip of the service's checkpoint value encoding:
`parseInt(n.toString()) = n`. -/
theorem parseNat_natToString (n : Nat) : parseNat (natToString n) = n := by
  by_cases h0 : n = 0
  · subst h0; rfl
  · simp only [natToString, parseNat, h0, if_false]
    show ofDigitsLE (((toDigitsLE n n).reverse.map digitChar).map charDigit).reverse = n
    rw [List.map_map]
    have : (toDigitsLE n n).reverse.map (charDigit ∘ digitChar)
        = (toDigitsLE n n).reverse := by
      rw [List.map_congr_left, List.map_id]
      intro d hd
      exact charDigit_digitChar (toDigitsLE_lt_ten n d (List.mem_reverse.mp hd))
    rw [this, List.reverse_reverse, ofDigitsLE_toDigitsLE n (Nat.le_refl n)]

/-! ## Checkpoint store (`system_settings`)

`getLastProcessedBlock` / `saveLastProcessedBlock` in the source both compute
`chainKey = chain.toLowerCase() === 'bitcoin' ? 'btc' : chain.toLowerCase()`
and the key `last_processed_block_${chainKey}_${network}`; the save upserts
the row and verifies the write by reading it back. -/

/-- JavaScript `String.prototype.toLowerCase()` (kernel-evaluable form of
`String.toLower`; chain names and addresses are ASCII). -/
def toLowerStr (s : String) : String := String.mk (s.data.map Char.toLower)

/-- The chain-key normalization of `getLastProcessedBlock` and
`saveLastProcessedBlock`. -/
def checkpointChainKey (chain : String) : String :=
  if toLowerStr chain == "bitcoin" then "btc" else toLowerStr chain

/-- The `system_settings` key used for a chain's checkpoint. -/
def checkpointKey (chain network : String) : String :=
  "last_processed_block_" ++ checkpointChainKey chain ++ "_" ++ network

/-- Upsert into the `system_settings` table (`INSERT ... ON CONFLICT (key) DO
UPDATE SET value`). -/
def upsertSetting (key value : String) (settings : List (String × String)) :
    List (String × String) :=
  if settings.any (fun p => p.1 == key) then
    settings.map (fun p => if p.1 == key then (key, value) else p)
  else settings ++ [(key, value)]

/-- `findOne({ where: { key } })` on `system_settings`. -/
def lookupSetting (key : String) (settings : List (String × String)) : Option String :=
  (settings.find? (fun p => p.1 == key)).map (fun p => p.2)

theorem lookupSetting_upsertSetting_self (key value : String)
    (settings : List (String × String)) :
    lookupSetting key (upsertSetting key value settings) = some value := by
  unfold upsertSetting
  by_cases h : settings.any (fun p => p.1 == key)
  · rw [if_pos h]
    unfold lookupSetting
    induction settings with
    | nil => simp at h
    | cons p rest ih =>
      by_cases hp : p.1 == key
      · rw [List.map_cons, if_pos hp, List.find?_cons_of_pos _ (by simp)]
        rfl
      · have hrest : rest.any (fun q => q.1 == key) := by
          simp only [List.any_cons] at h
          rcases Bool.or_eq_true_iff.mp h with hc | hc
          · exact absurd hc hp
          · exact hc
        have hp' : (p.1 == key) = false := by simpa using hp
        rw [List.map_cons, if_neg hp, List.find?_cons, hp']
        exact ih hrest
  · rw [if_neg h]
    unfold lookupSetting
    have hnone : settings.find? (fun p => p.1 == key) = none := by
      rw [List.find?_eq_none]
      intro x hx hkey
      exact h (List.any_eq_true.mpr ⟨x, hx, hkey⟩)
    rw [List.find?_append, hnone]
    simp

/-! ## Data model

Entity shapes as the service reads and writes them (`wallet.entity`,
`token.entity`, `deposit.entity`, `wallet-balance.entity`; only the columns the
tracking service touches are modelled). -/

/-- A user wallet row; the service only reads these. -/
structure Wallet where
  id : String
  userId : String
  address : String
  blockchain : String
  network : String
  deriving DecidableEq, Repr

/-- A token row; the service only reads these. -/
structure Token where
  id : String
  symbol : String
  baseSymbol : Option String
  blockchain : String
  contractAddress : Option String
  networkVersion : String
  decimals : Nat
  isActive : Bool
  deriving DecidableEq, Repr

/-- The `metadata` JSON column of a deposit (`from` is a reserved word in
Lean, modelled as `fromAddr`). -/
structure DepositMeta where
  fromAddr : String
  contractAddress : Option String
  blockHash : String
  deriving DecidableEq, Repr

/-- A deposit row.  `amount` is the decimal string the service stores;
`confirmations` is `Int` because `updateTronConfirmations` and
`updateEvmConfirmations` write `currentBlock - deposit.blockNumber` without
clamping. -/
structure Deposit where
  id : Nat
  userId : String
  walletId : String
  tokenId : String
  txHash : String
  amount : String
  blockchain : String
  network : String
  networkVersion : String
  blockNumber : Option Int
  status : String
  confirmations : Int
  metadata : DepositMeta
  deriving DecidableEq, Repr

/-- A spot wallet-balance row; `balance` is kept as an exact rational, the
value semantics of the `decimal.js` arithmetic used by `updateWalletBalance`. -/
structure WalletBalance where
  userId : String
  baseSymbol : String
  type : String
  balance : Rat
  deriving DecidableEq, Repr

/-- The persistent state the service reads and writes: the four tables plus
two observation logs.  `credits` records each balance-credit event performed by
`updateWalletBalance` as `(deposit.id, deposit.amount)` (the increment applied
inside its transaction); `processedLog` records the height of each block whose
processing completed (the source's "Completed block" log line). -/
structure TrackerState where
  deposits : List Deposit
  wallets : List Wallet
  tokens : List Token
  balances : List WalletBalance
  settings : List (String × String)
  credits : List (Nat × String)
  processedLog : List Nat
  deriving DecidableEq, Repr

/-- Exact value of a decimal string (`decimal.js` arithmetic is exact decimal;
the strings the service feeds it are plain `intpart[.fracpart]` decimals). -/
def parseDecimal (s : String) : Rat :=
  match s.splitOn "." with
  | [i] => (parseNat i : Rat)
  | [i, f] => (parseNat i : Rat) + (parseNat f : Rat) / (10 ^ f.length : Rat)
  | _ => 0

/-- `CONFIRMATION_BLOCKS` table of the service. -/
def CONFIRMATION_BLOCKS (chainKey network : String) : Nat :=
  if chainKey == "eth" then (if network == "mainnet" then 12 else 5)
  else if chainKey == "bsc" then (if network == "mainnet" then 15 else 6)
  else if chainKey == "btc" then (if network == "mainnet" then 3 else 2)
  else if chainKey == "trx" then (if network == "mainnet" then 20 else 10)
  else if chainKey == "xrp" then (if network == "mainnet" then 4 else 2)
  else 0

/-- `CHAIN_KEYS` lookup with the source's `CHAIN_KEYS[chain] || chain`
fallback. -/
def CHAIN_KEYS (chain : String) : String :=
  if chain == "bitcoin" then "btc" else chain

/-- `getLastProcessedBlock`: read the checkpoint; a missing row reads as 0. -/
def getLastProcessedBlockState (chain network : String) (st : TrackerState) : Nat :=
  match lookupSetting (checkpointKey chain network) st.settings with
  | some v => parseNat v
  | none => 0

/-- `saveLastProcessedBlock`: upsert the checkpoint as a decimal string.  The
source re-reads the row and throws when `parseInt(saved.value)` differs from
`blockNumber`; by `parseNat_natToString` and
`lookupSetting_upsertSetting_self` the verification always succeeds here, so
the model is total. -/
def saveLastProcessedBlockState (chain network : String) (blockNumber : Nat)
    (st : TrackerState) : TrackerState :=
  let newSettings := upsertSetting (checkpointKey chain network)
    (natToString blockNumber) st.settings
  { st with settings := newSettings }

/-! ## Ledger applier (`updateWalletBalance`)

`updateWalletBalance(deposit)` runs one storage transaction: read the token
row for `deposit.tokenId`, find the spot balance row for
`(deposit.userId, token.baseSymbol ?? token.symbol, 'spot')`, throw
`'Wallet balance not found'` when it is missing, otherwise add
`deposit.amount` with exact decimal arithmetic and save that row.  `none`
models the thrown error (the transaction rolls back, so the pre-state is
returned unchanged to the caller's catch). -/

/-- Add `amt` to the first balance row matching the spot key, leaving every
other row alone (the source updates exactly the row `findOne` returned). -/
def creditBalanceRow (uid sym : String) (amt : Rat) :
    List WalletBalance → List WalletBalance
  | [] => []
  | b :: rest =>
    if b.userId == uid && b.baseSymbol == sym && b.type == "spot" then
      { b with balance := b.balance + amt } :: rest
    else b :: creditBalanceRow uid sym amt rest

/-- `findOne(WalletBalance, { userId, baseSymbol, type: 'spot' })`. -/
def findBalance (balances : List WalletBalance) (uid sym : String) :
    Option WalletBalance :=
  balances.find? (fun b => b.userId == uid && b.baseSymbol == sym && b.type == "spot")

/-- `updateWalletBalance(deposit)`; `none` is the thrown error. -/
def updateWalletBalance (st : TrackerState) (d : Deposit) : Option TrackerState :=
  match st.tokens.find? (fun t => t.id == d.tokenId) with
  | none => none
  | some token =>
    match findBalance st.balances d.userId (token.baseSymbol.getD token.symbol) with
    | none => none
    | some _ =>
      some { st with
              balances := creditBalanceRow d.userId (token.baseSymbol.getD token.symbol)
                (parseDecimal d.amount) st.balances,
              credits := st.credits ++ [(d.id, d.amount)] }

/-- Whether `updateWalletBalance` can succeed for a deposit with this
`tokenId` and `userId`, given the token table and the balance table. -/
def canCredit (tokens : List Token) (balances : List WalletBalance)
    (tokenId userId : String) : Bool :=
  match tokens.find? (fun t => t.id == tokenId) with
  | none => false
  | some token => (findBalance balances userId (token.baseSymbol.getD token.symbol)).isSome

/-! ## Confirmation updater

`updateTronConfirmations(network, currentBlock)` and
`updateEvmConfirmations(chain, network, currentBlock)` share one body: select
all deposits of the chain and network with status in `['pending',
'confirming']` and non-null `blockNumber`; for each, persist
`confirmations = currentBlock - blockNumber` and
`status = confirmations >= required ? 'confirmed' : 'confirming'`, then, when
the threshold is met and the selected row's status was not already
`'confirmed'`, call `updateWalletBalance`.  An error thrown by
`updateWalletBalance` propagates to the surrounding `catch`, ending the pass:
deposits later in the selection are not touched, while the failed deposit's
status update has already been persisted. -/

/-- The selection query of both confirmation updaters. -/
def pendingDepositsFor (chain network : String) (ds : List Deposit) : List Deposit :=
  ds.filter (fun d => d.blockchain == chain && d.network == network &&
    (d.status == "pending" || d.status == "confirming") && d.blockNumber.isSome)

/-- `depositRepository.update(deposit.id, { confirmations, status })`. -/
def applyDepositUpdate (ds : List Deposit) (id : Nat) (conf : Int) (status : String) :
    List Deposit :=
  ds.map (fun e => if e.id == id then { e with confirmations := conf, status := status } else e)

/-- The loop's `confirmations = currentBlock - deposit.blockNumber` (the
selection guarantees `blockNumber` is non-null, so `getD 0` never fires for a
selected row). -/
def confOf (currentBlock : Int) (d : Deposit) : Int :=
  currentBlock - d.blockNumber.getD 0

/-- The loop's `status: confirmations >= requiredConfirmations ? 'confirmed' :
'confirming'`. -/
def newStatusOf (required : Nat) (currentBlock : Int) (d : Deposit) : String :=
  if (required : Int) ≤ confOf currentBlock d then "confirmed" else "confirming"

/-- The state right after `depositRepository.update(deposit.id,
{ confirmations, status })` for one selected row. -/
def confUpdatedState (required : Nat) (currentBlock : Int) (st : TrackerState)
    (d : Deposit) : TrackerState :=
  let ds := applyDepositUpdate st.deposits d.id (confOf currentBlock d)
    (newStatusOf required currentBlock d)
  { st with deposits := ds }

/-- One loop iteration of the updater over a selected deposit `d` (a snapshot
row): persist the `(confirmations, status)` update, then credit when the
threshold is met and the snapshot row was not already confirmed.  The second
component records whether the iteration threw (`updateWalletBalance` failed
after the status update was persisted). -/
def processConfDeposit (required : Nat) (currentBlock : Int) (st : TrackerState)
    (d : Deposit) : TrackerState × Bool :=
  if (required : Int) ≤ confOf currentBlock d ∧ d.status ≠ "confirmed" then
    match updateWalletBalance (confUpdatedState required currentBlock st d) d with
    | some st2 => (st2, false)
    | none => (confUpdatedState required currentBlock st d, true)
  else (confUpdatedState required currentBlock st d, false)

/-- The updater's `for` loop: a thrown credit ends the pass. -/
def processConfDeposits (required : Nat) (currentBlock : Int) :
    List Deposit → TrackerState → TrackerState
  | [], st => st
  | d :: rest, st =>
    if (processConfDeposit required currentBlock st d).2 then
      (processConfDeposit required currentBlock st d).1
    else processConfDeposits required currentBlock rest
      (processConfDeposit required currentBlock st d).1

/-- `updateTronConfirmations(network, currentBlock)`. -/
def updateTronConfirmations (network : String) (currentBlock : Int)
    (st : TrackerState) : TrackerState :=
  processConfDeposits (CONFIRMATION_BLOCKS "trx" network) currentBlock
    (pendingDepositsFor "trx" network st.deposits) st

/-- `updateEvmConfirmations(chain, network, currentBlock)` (the source computes
`chainKey = CHAIN_KEYS[chain] || chain` for the confirmation table). -/
def updateEvmConfirmations (chain network : String) (currentBlock : Int)
    (st : TrackerState) : TrackerState :=
  processConfDeposits (CONFIRMATION_BLOCKS (CHAIN_KEYS chain) network) currentBlock
    (pendingDepositsFor chain network st.deposits) st

/-- A sequence of Tron confirmation-update passes (one per processed block, as
`checkTronBlocks` invokes them). -/
def runTronPasses (network : String) (heights : List Int) (st : TrackerState) :
    TrackerState :=
  heights.foldl (fun s h => updateTronConfirmations network h s) st

/-- The credit events recorded for one deposit id. -/
def creditsFor (st : TrackerState) (id : Nat) : List (Nat × String) :=
  st.credits.filter (fun p => p.1 == id)

/-- The deposit row with a given id (ids are unique in every state we
consider, so `find?` is the row). -/
def rowOf (st : TrackerState) (id : Nat) : Option Deposit :=
  st.deposits.find? (fun e => e.id == id)

/-- C9: For every chain name and network, the checkpoint is written and read
under the key `last_processed_block_{chainKey}_{network}` with the external
name `bitcoin` mapped to the chain key `btc` before interpolation — writer and
reader compute the same key, so a save under either name is read back under
either name — and reading a checkpoint that was never written returns 0. -/
theorem checkpoint_key_agreement (chain network : String) (st : TrackerState) (n : Nat) :
    getLastProcessedBlockState chain network
      (saveLastProcessedBlockState chain network n st) = n
    ∧ getLastProcessedBlockState "btc" network
        (saveLastProcessedBlockState "bitcoin" network n st) = n
    ∧ getLastProcessedBlockState "bitcoin" network
        (saveLastProcessedBlockState "btc" network n st) = n
    ∧ getLastProcessedBlockState chain network { st with settings := [] } = 0
    ∧ checkpointKey "bitcoin" network = "last_processed_block_btc_" ++ network := by
  have hkey : checkpointChainKey "bitcoin" = "btc" := by decide
  have hkey2 : checkpointChainKey "btc" = "btc" := by decide
  have hround : ∀ c1 c2 : String, checkpointKey c1 network = checkpointKey c2 network →
      getLastProcessedBlockState c1 network
        (saveLastProcessedBlockState c2 network n st) = n := by
    intro c1 c2 hc
    unfold getLastProcessedBlockState saveLastProcessedBlockState
    rw [hc, lookupSetting_upsertSetting_self]
    exact parseNat_natToString n
  refine ⟨hround chain chain rfl, ?_, ?_, ?_, ?_⟩
  · exact hround "btc" "bitcoin" (by unfold checkpointKey; rw [hkey, hkey2])
  · exact hround "bitcoin" "btc" (by unfold checkpointKey; rw [hkey, hkey2])
  · unfold getLastProcessedBlockState
    simp [lookupSetting]
  · unfold checkpointKey
    rw [hkey]
    exact congrArg (fun s => s ++ network)
      (show ("last_processed_block_" ++ "btc" ++ "_" : String)
        = "last_processed_block_btc_" by decide)

/-! ## Invariants of the confirmation updater

The updater only writes the `confirmations` and `status` columns of deposits
and the `balance` column of wallet balances, so token rows, wallet rows,
settings, deposit ids and balance-row keys are all preserved; these stability
facts drive the credit-once proofs. -/

/-- The update applied to a deposit row by
`depositRepository.update(id, { confirmations, status })`. -/
def updRow (e : Deposit) (conf : Int) (status : String) : Deposit :=
  { e with confirmations := conf, status := status }

/-- The lookup key of a wallet-balance row. -/
def balKey (b : WalletBalance) : String × String × String :=
  (b.userId, b.baseSymbol, b.type)

/-- The condition under which one updater iteration calls
`updateWalletBalance` (threshold reached and the selected row was not already
confirmed). -/
def creditCond (required : Nat) (currentBlock : Int) (d : Deposit) : Bool :=
  decide ((required : Int) ≤ confOf currentBlock d) && !(d.status == "confirmed")

/-- Every deposit's credit can succeed: its token row exists and the matching
spot balance row exists. -/
def CreditsOK (st : TrackerState) : Prop :=
  ∀ e ∈ st.deposits, canCredit st.tokens st.balances e.tokenId e.userId = true

/-- What one updater pass can never change. -/
structure Stable (st st' : TrackerState) : Prop where
  tokens : st'.tokens = st.tokens
  wallets : st'.wallets = st.wallets
  settings : st'.settings = st.settings
  balKeys : st'.balances.map balKey = st.balances.map balKey
  ids : st'.deposits.map Deposit.id = st.deposits.map Deposit.id
  keysMem : ∀ e' ∈ st'.deposits, ∃ e ∈ st.deposits,
    e'.tokenId = e.tokenId ∧ e'.userId = e.userId

theorem Stable.rfl (st : TrackerState) : Stable st st :=
  ⟨Eq.refl _, Eq.refl _, Eq.refl _, Eq.refl _, Eq.refl _,
    fun e' h => ⟨e', h, Eq.refl _, Eq.refl _⟩⟩

theorem Stable.comp {st1 st2 st3 : TrackerState} (h12 : Stable st1 st2)
    (h23 : Stable st2 st3) : Stable st1 st3 := by
  refine ⟨h23.tokens.trans h12.tokens, h23.wallets.trans h12.wallets,
    h23.settings.trans h12.settings, h23.balKeys.trans h12.balKeys,
    h23.ids.trans h12.ids, ?_⟩
  intro e' h'
  obtain ⟨e2, he2, ht2, hu2⟩ := h23.keysMem e' h'
  obtain ⟨e1, he1, ht1, hu1⟩ := h12.keysMem e2 he2
  exact ⟨e1, he1, ht2.trans ht1, hu2.trans hu1⟩

theorem find?_isSome_eq_any {α : Type} (p : α → Bool) (l : List α) :
    (l.find? p).isSome = l.any p := by
  induction l with
  | nil => rfl
  | cons a t ih =>
    cases hp : p a
    · rw [List.find?_cons, hp, List.any_cons, hp, Bool.false_or, ih]
    · rw [List.find?_cons, hp, List.any_cons, hp, Bool.true_or]
      rfl

theorem any_comp_map {α β : Type} (f : α → β) (p : β → Bool) :
    ∀ l : List α, (l.map f).any p = l.any (fun a => p (f a))
  | [] => Eq.refl _
  | a :: t => by
    rw [List.map_cons, List.any_cons, List.any_cons, any_comp_map f p t]

theorem findBalance_isSome_congr {l l' : List WalletBalance} (uid sym : String)
    (h : l.map balKey = l'.map balKey) :
    (findBalance l uid sym).isSome = (findBalance l' uid sym).isSome := by
  unfold findBalance
  rw [find?_isSome_eq_any, find?_isSome_eq_any]
  have key : ∀ m : List WalletBalance,
      (m.any fun b => b.userId == uid && b.baseSymbol == sym && b.type == "spot")
      = (m.map balKey).any (fun k => k.1 == uid && k.2.1 == sym && k.2.2 == "spot") := by
    intro m
    rw [any_comp_map balKey (fun k => k.1 == uid && k.2.1 == sym && k.2.2 == "spot") m]
    rfl
  rw [key, key, h]

theorem canCredit_congr {t : List Token} {b b' : List WalletBalance}
    (h : b.map balKey = b'.map balKey) (tokenId userId : String) :
    canCredit t b tokenId userId = canCredit t b' tokenId userId := by
  unfold canCredit
  cases t.find? (fun tk => tk.id == tokenId) with
  | none => rfl
  | some token => exact findBalance_isSome_congr _ _ h

theorem creditBalanceRow_balKey (uid sym : String) (amt : Rat)
    (l : List WalletBalance) :
    (creditBalanceRow uid sym amt l).map balKey = l.map balKey := by
  induction l with
  | nil => rfl
  | cons b rest ih =>
    unfold creditBalanceRow
    by_cases hb : b.userId == uid && b.baseSymbol == sym && b.type == "spot"
    · rw [if_pos hb]
      rfl
    · rw [if_neg hb, List.map_cons, List.map_cons, ih]

theorem updateWalletBalance_isSome (st : TrackerState) (d : Deposit) :
    (updateWalletBalance st d).isSome
      = canCredit st.tokens st.balances d.tokenId d.userId := by
  unfold updateWalletBalance canCredit
  cases st.tokens.find? (fun t => t.id == d.tokenId) with
  | none => rfl
  | some token =>
    cases h : findBalance st.balances d.userId (token.baseSymbol.getD token.symbol) with
    | none => simp [h]
    | some b => simp [h]

theorem updateWalletBalance_some {st st' : TrackerState} {d : Deposit}
    (h : updateWalletBalance st d = some st') :
    st'.deposits = st.deposits ∧ st'.tokens = st.tokens ∧ st'.wallets = st.wallets
    ∧ st'.settings = st.settings ∧ st'.processedLog = st.processedLog
    ∧ st'.credits = st.credits ++ [(d.id, d.amount)]
    ∧ st'.balances.map balKey = st.balances.map balKey := by
  unfold updateWalletBalance at h
  split at h
  · exact absurd h (by simp)
  · split at h
    · exact absurd h (by simp)
    · simp only [Option.some.injEq] at h
      subst h
      refine ⟨Eq.refl _, Eq.refl _, Eq.refl _, Eq.refl _, Eq.refl _, Eq.refl _, ?_⟩
      exact creditBalanceRow_balKey _ _ _ _

theorem applyDepositUpdate_map_id (ds : List Deposit) (id : Nat) (c : Int) (s : String) :
    (applyDepositUpdate ds id c s).map Deposit.id = ds.map Deposit.id := by
  unfold applyDepositUpdate
  rw [List.map_map]
  apply List.map_congr_left
  intro e _
  by_cases h : e.id == id
  · simp only [Function.comp, if_pos h]
  · simp only [Function.comp, if_neg h]

theorem applyDepositUpdate_keysMem (ds : List Deposit) (id : Nat) (c : Int) (s : String) :
    ∀ e' ∈ applyDepositUpdate ds id c s, ∃ e ∈ ds,
      e'.tokenId = e.tokenId ∧ e'.userId = e.userId := by
  intro e' h'
  obtain ⟨e, he, hfe⟩ := List.mem_map.mp h'
  refine ⟨e, he, ?_⟩
  by_cases h : e.id == id
  · rw [if_pos h] at hfe
    subst hfe
    exact ⟨Eq.refl _, Eq.refl _⟩
  · rw [if_neg h] at hfe
    subst hfe
    exact ⟨Eq.refl _, Eq.refl _⟩

theorem find?_id_applyDepositUpdate (ds : List Deposit) (id : Nat) (c : Int)
    (s : String) (j : Nat) :
    (applyDepositUpdate ds id c s).find? (fun e => e.id == j)
      = (ds.find? (fun e => e.id == j)).map
          (fun e => if e.id == id then { e with confirmations := c, status := s } else e) := by
  unfold applyDepositUpdate
  rw [List.find?_map]
  have hp : ((fun e : Deposit => e.id == j)
        ∘ (fun e => if e.id == id then { e with confirmations := c, status := s } else e))
      = (fun e : Deposit => e.id == j) := by
    funext e
    by_cases h : e.id == id
    · simp only [Function.comp, if_pos h]
    · simp only [Function.comp, if_neg h]
  rw [hp]

/-- What one updater iteration does, in full: component-wise description of
`processConfDeposit`. -/
theorem processConfDeposit_characterize (required : Nat) (cur : Int)
    (st : TrackerState) (d : Deposit) :
    (processConfDeposit required cur st d).1.tokens = st.tokens
    ∧ (processConfDeposit required cur st d).1.wallets = st.wallets
    ∧ (processConfDeposit required cur st d).1.settings = st.settings
    ∧ (processConfDeposit required cur st d).1.balances.map balKey = st.balances.map balKey
    ∧ (processConfDeposit required cur st d).1.deposits
        = applyDepositUpdate st.deposits d.id (confOf cur d) (newStatusOf required cur d)
    ∧ (processConfDeposit required cur st d).1.credits
        = st.credits ++ (if creditCond required cur d
            && canCredit st.tokens st.balances d.tokenId d.userId
          then [(d.id, d.amount)] else [])
    ∧ (processConfDeposit required cur st d).2
        = (creditCond required cur d
            && !(canCredit st.tokens st.balances d.tokenId d.userId)) := by
  unfold processConfDeposit
  by_cases hc : (required : Int) ≤ confOf cur d ∧ d.status ≠ "confirmed"
  · rw [if_pos hc]
    have hcc : creditCond required cur d = true := by
      unfold creditCond
      rw [Bool.and_eq_true, decide_eq_true_eq]
      refine ⟨hc.1, ?_⟩
      simp only [Bool.not_eq_eq_eq_not, Bool.not_true, beq_eq_false_iff_ne]
      exact hc.2
    have hbase : canCredit (confUpdatedState required cur st d).tokens
          (confUpdatedState required cur st d).balances d.tokenId d.userId
        = canCredit st.tokens st.balances d.tokenId d.userId := by
      rfl
    cases huwb : updateWalletBalance (confUpdatedState required cur st d) d with
    | some st2 =>
      have hcan : canCredit st.tokens st.balances d.tokenId d.userId = true := by
        rw [← hbase, ← updateWalletBalance_isSome, huwb]
        rfl
      obtain ⟨hdep, htok, hwal, hset, _, hcred, hbal⟩ := updateWalletBalance_some huwb
      refine ⟨htok, hwal, hset, hbal, by rw [hdep]; rfl, ?_, by rw [hcc, hcan]; rfl⟩
      rw [hcred, hcc, hcan]
      rfl
    | none =>
      have hcan : canCredit st.tokens st.balances d.tokenId d.userId = false := by
        rw [← hbase, ← updateWalletBalance_isSome, huwb]
        rfl
      refine ⟨Eq.refl _, Eq.refl _, Eq.refl _, Eq.refl _, Eq.refl _, ?_, by rw [hcc, hcan]; rfl⟩
      rw [hcc, hcan]
      simp
      rfl
  · rw [if_neg hc]
    have hcc : creditCond required cur d = false := by
      unfold creditCond
      rw [Bool.and_eq_false_iff]
      rcases Decidable.not_and_iff_or_not.mp hc with h1 | h2
      · exact Or.inl (by simpa using h1)
      · refine Or.inr ?_
        simp only [Bool.not_eq_false', beq_iff_eq]
        exact Decidable.not_not.mp h2
    refine ⟨Eq.refl _, Eq.refl _, Eq.refl _, Eq.refl _, Eq.refl _, ?_, by rw [hcc]; rfl⟩
    rw [hcc]
    simp
    rfl

theorem processConfDeposit_stable (required : Nat) (cur : Int) (st : TrackerState)
    (d : Deposit) : Stable st (processConfDeposit required cur st d).1 := by
  obtain ⟨htok, hwal, hset, hbal, hdep, _, _⟩ :=
    processConfDeposit_characterize required cur st d
  refine ⟨htok, hwal, hset, hbal, ?_, ?_⟩
  · rw [hdep]
    exact applyDepositUpdate_map_id _ _ _ _
  · rw [hdep]
    exact applyDepositUpdate_keysMem _ _ _ _

theorem rowOf_processConfDeposit_ne (required : Nat) (cur : Int) (st : TrackerState)
    (d : Deposit) (j : Nat) (hne : d.id ≠ j) :
    rowOf (processConfDeposit required cur st d).1 j = rowOf st j := by
  obtain ⟨_, _, _, _, hdep, _, _⟩ := processConfDeposit_characterize required cur st d
  unfold rowOf
  rw [hdep, find?_id_applyDepositUpdate]
  cases hf : st.deposits.find? (fun e => e.id == j) with
  | none => rfl
  | some e =>
    have hej : e.id = j := by
      have := List.find?_some hf
      simpa using this
    rw [Option.map_some']
    rw [if_neg (by simp [hej, Ne.symm hne])]

theorem creditsFor_processConfDeposit_ne (required : Nat) (cur : Int)
    (st : TrackerState) (d : Deposit) (j : Nat) (hne : d.id ≠ j) :
    creditsFor (processConfDeposit required cur st d).1 j = creditsFor st j := by
  obtain ⟨_, _, _, _, _, hcred, _⟩ := processConfDeposit_characterize required cur st d
  unfold creditsFor
  rw [hcred, List.filter_append]
  have happ : (if creditCond required cur d
        && canCredit st.tokens st.balances d.tokenId d.userId
      then [((d.id : Nat), d.amount)] else []).filter (fun p => p.1 == j) = [] := by
    by_cases hcd : creditCond required cur d
        && canCredit st.tokens st.balances d.tokenId d.userId
    · rw [if_pos hcd]
      simp [hne]
    · rw [if_neg hcd]
      rfl
  rw [happ, List.append_nil]

theorem processConfDeposits_untouched (required : Nat) (cur : Int) :
    ∀ (sel : List Deposit) (st : TrackerState),
    (processConfDeposits required cur sel st).tokens = st.tokens
    ∧ (processConfDeposits required cur sel st).wallets = st.wallets
    ∧ (processConfDeposits required cur sel st).settings = st.settings
    ∧ (processConfDeposits required cur sel st).balances.map balKey = st.balances.map balKey
    ∧ (processConfDeposits required cur sel st).deposits.map Deposit.id
        = st.deposits.map Deposit.id
    ∧ ∀ j : Nat, (∀ e ∈ sel, e.id ≠ j) →
        rowOf (processConfDeposits required cur sel st) j = rowOf st j
        ∧ creditsFor (processConfDeposits required cur sel st) j = creditsFor st j
  | [], st => by
    exact ⟨Eq.refl _, Eq.refl _, Eq.refl _, Eq.refl _, Eq.refl _,
      fun j _ => ⟨Eq.refl _, Eq.refl _⟩⟩
  | d :: rest, st => by
    have hstable := processConfDeposit_stable required cur st d
    unfold processConfDeposits
    cases hcase : (processConfDeposit required cur st d).2 with
    | true =>
      rw [if_pos (Eq.refl true)]
      refine ⟨hstable.tokens, hstable.wallets, hstable.settings, hstable.balKeys,
        hstable.ids, ?_⟩
      intro j hj
      exact ⟨rowOf_processConfDeposit_ne required cur st d j (hj d (List.mem_cons_self d rest)),
        creditsFor_processConfDeposit_ne required cur st d j (hj d (List.mem_cons_self d rest))⟩
    | false =>
      rw [if_neg Bool.false_ne_true]
      obtain ⟨ih1, ih2, ih3, ih4, ih5, ih6⟩ :=
        processConfDeposits_untouched required cur rest (processConfDeposit required cur st d).1
      refine ⟨ih1.trans hstable.tokens, ih2.trans hstable.wallets,
        ih3.trans hstable.settings, ih4.trans hstable.balKeys, ih5.trans hstable.ids, ?_⟩
      intro j hj
      obtain ⟨hrow, hcred⟩ := ih6 j (fun e he => hj e (List.mem_cons_of_mem d he))
      refine ⟨hrow.trans ?_, hcred.trans ?_⟩
      · exact rowOf_processConfDeposit_ne required cur st d j (hj d (List.mem_cons_self d rest))
      · exact creditsFor_processConfDeposit_ne required cur st d j (hj d (List.mem_cons_self d rest))

/-- With every selected deposit creditable, a pass never throws: the state
stays `Stable` and the credit log gains exactly one entry `(id, amount)` per
selected deposit meeting the credit condition, in selection order. -/
theorem processConfDeposits_ok (required : Nat) (cur : Int) :
    ∀ (sel : List Deposit) (st : TrackerState),
    (∀ e ∈ sel, canCredit st.tokens st.balances e.tokenId e.userId = true) →
    Stable st (processConfDeposits required cur sel st)
    ∧ (processConfDeposits required cur sel st).credits
        = st.credits ++ (sel.filter (creditCond required cur)).map
            (fun e => ((e.id : Nat), e.amount))
  | [], st => by
    intro _
    exact ⟨Stable.rfl st, by simp [processConfDeposits]⟩
  | d :: rest, st => by
    intro hok
    have hstable := processConfDeposit_stable required cur st d
    obtain ⟨htok, _, _, hbal, _, hcred, hr2⟩ :=
      processConfDeposit_characterize required cur st d
    have hcan : canCredit st.tokens st.balances d.tokenId d.userId = true :=
      hok d (List.mem_cons_self d rest)
    have hr2f : (processConfDeposit required cur st d).2 = false := by
      rw [hr2, hcan]
      simp
    have hok' : ∀ e ∈ rest,
        canCredit (processConfDeposit required cur st d).1.tokens
          (processConfDeposit required cur st d).1.balances e.tokenId e.userId = true := by
      intro e he
      rw [htok, canCredit_congr hbal]
      exact hok e (List.mem_cons_of_mem d he)
    obtain ⟨ihstable, ihcred⟩ :=
      processConfDeposits_ok required cur rest (processConfDeposit required cur st d).1 hok'
    constructor
    · unfold processConfDeposits
      rw [hr2f]
      simp only [Bool.false_eq_true, if_false]
      exact hstable.comp ihstable
    · unfold processConfDeposits
      rw [hr2f]
      simp only [Bool.false_eq_true, if_false]
      rw [ihcred, hcred, hcan, Bool.and_true, List.filter_cons]
      by_cases hcd : creditCond required cur d
      · rw [if_pos hcd, if_pos hcd, List.map_cons, List.append_assoc]
        rfl
      · rw [if_neg hcd, if_neg hcd, List.append_nil]

theorem CreditsOK_of_stable {st st' : TrackerState} (h : Stable st st')
    (hok : CreditsOK st) : CreditsOK st' := by
  intro e' he'
  obtain ⟨e, he, ht, hu⟩ := h.keysMem e' he'
  rw [h.tokens, canCredit_congr h.balKeys, ht, hu]
  exact hok e he

theorem find?_id_eq_of_nodup {ds : List Deposit}
    (hnd : (ds.map Deposit.id).Nodup) {d : Deposit} (hd : d ∈ ds) :
    ds.find? (fun e => e.id == d.id) = some d := by
  induction ds with
  | nil => cases hd
  | cons a t ih =>
    rcases List.mem_cons.mp hd with rfl | hdt
    · exact List.find?_cons_of_pos _ (by simp)
    · rw [List.map_cons, List.nodup_cons] at hnd
      have haid : (a.id == d.id) = false := by
        rw [beq_eq_false_iff_ne]
        intro hEq
        exact hnd.1 (hEq ▸ List.mem_map_of_mem Deposit.id hdt)
      rw [List.find?_cons, haid]
      exact ih hnd.2 hdt

theorem mem_pendingDepositsFor {chain network : String} {ds : List Deposit}
    {d : Deposit} (hmem : d ∈ ds) (hchain : d.blockchain = chain)
    (hnet : d.network = network)
    (hstatus : d.status = "pending" ∨ d.status = "confirming")
    (hbn : d.blockNumber.isSome) :
    d ∈ pendingDepositsFor chain network ds := by
  unfold pendingDepositsFor
  apply List.mem_filter.mpr
  refine ⟨hmem, ?_⟩
  rw [hchain, hnet]
  rcases hstatus with h | h <;> simp [h, hbn]

theorem pendingDepositsFor_nodup {chain network : String} {ds : List Deposit}
    (hnd : (ds.map Deposit.id).Nodup) :
    ((pendingDepositsFor chain network ds).map Deposit.id).Nodup :=
  hnd.sublist ((List.filter_sublist ds).map Deposit.id)

theorem processConfDeposits_cons (required : Nat) (cur : Int) (d : Deposit)
    (rest : List Deposit) (st : TrackerState) :
    processConfDeposits required cur (d :: rest) st
      = if (processConfDeposit required cur st d).2 then
          (processConfDeposit required cur st d).1
        else processConfDeposits required cur rest (processConfDeposit required cur st d).1 :=
  Eq.refl _

theorem processConfDeposits_append_ok (required : Nat) (cur : Int) :
    ∀ (l1 l2 : List Deposit) (st : TrackerState),
    (∀ e ∈ l1, canCredit st.tokens st.balances e.tokenId e.userId = true) →
    processConfDeposits required cur (l1 ++ l2) st
      = processConfDeposits required cur l2 (processConfDeposits required cur l1 st)
  | [], l2, st => fun _ => Eq.refl _
  | d :: t, l2, st => by
    intro hok
    obtain ⟨htok, _, _, hbal, _, _, hr2⟩ :=
      processConfDeposit_characterize required cur st d
    have hr2f : (processConfDeposit required cur st d).2 = false := by
      rw [hr2, hok d (List.mem_cons_self d t)]
      simp
    have hok' : ∀ e ∈ t,
        canCredit (processConfDeposit required cur st d).1.tokens
          (processConfDeposit required cur st d).1.balances e.tokenId e.userId = true := by
      intro e he
      rw [htok, canCredit_congr hbal]
      exact hok e (List.mem_cons_of_mem d he)
    rw [List.cons_append, processConfDeposits_cons, hr2f]
    simp only [Bool.false_eq_true, if_false]
    rw [processConfDeposits_append_ok required cur t l2
      (processConfDeposit required cur st d).1 hok']
    rw [processConfDeposits_cons, hr2f]
    simp only [Bool.false_eq_true, if_false]

/-- One Tron confirmation pass, seen from one selected deposit `d` (the row as
stored before the pass): its row is updated to the computed confirmations and
the computed status, it is credited exactly when the threshold is met, and the
pass preserves stability, creditability and id-uniqueness. -/
theorem updateTronConfirmations_target {st : TrackerState} {network : String}
    {cur : Int} {d : Deposit}
    (hmem : d ∈ st.deposits) (hchain : d.blockchain = "trx")
    (hnet : d.network = network)
    (hstatus : d.status = "pending" ∨ d.status = "confirming")
    (hbn : d.blockNumber.isSome)
    (hok : CreditsOK st) (hnd : (st.deposits.map Deposit.id).Nodup) :
    rowOf (updateTronConfirmations network cur st) d.id
      = some (updRow d (confOf cur d)
          (newStatusOf (CONFIRMATION_BLOCKS "trx" network) cur d))
    ∧ creditsFor (updateTronConfirmations network cur st) d.id
        = creditsFor st d.id
          ++ (if (CONFIRMATION_BLOCKS "trx" network : Int) ≤ confOf cur d
              then [((d.id : Nat), d.amount)] else [])
    ∧ Stable st (updateTronConfirmations network cur st)
    ∧ CreditsOK (updateTronConfirmations network cur st) := by
  set req := CONFIRMATION_BLOCKS "trx" network with hreqdef
  have hdsel : d ∈ pendingDepositsFor "trx" network st.deposits :=
    mem_pendingDepositsFor hmem hchain hnet hstatus hbn
  obtain ⟨pre, post, hsplit⟩ := List.append_of_mem hdsel
  have hselnd : ((pendingDepositsFor "trx" network st.deposits).map Deposit.id).Nodup :=
    pendingDepositsFor_nodup hnd
  rw [hsplit, List.map_append, List.map_cons, List.nodup_append] at hselnd
  obtain ⟨hndpre, hndcons, hdisj⟩ := hselnd
  rw [List.nodup_cons] at hndcons
  have hdpre : ∀ e ∈ pre, e.id ≠ d.id := by
    intro e he heq
    exact hdisj (List.mem_map_of_mem Deposit.id he)
      (heq ▸ List.mem_cons_self d.id (post.map Deposit.id))
  have hdpost : ∀ e ∈ post, e.id ≠ d.id := by
    intro e he heq
    exact hndcons.1 (heq ▸ List.mem_map_of_mem Deposit.id he)
  have hsel_sub : ∀ e ∈ pendingDepositsFor "trx" network st.deposits,
      e ∈ st.deposits := fun e he => List.mem_of_mem_filter he
  have hokpre : ∀ e ∈ pre, canCredit st.tokens st.balances e.tokenId e.userId = true := by
    intro e he
    refine hok e (hsel_sub e ?_)
    rw [hsplit]
    exact List.mem_append_left _ he
  have hcc_transport : ∀ st1 : TrackerState, Stable st st1 → ∀ e ∈ st.deposits,
      canCredit st1.tokens st1.balances e.tokenId e.userId = true := by
    intro st1 hs e he
    rw [hs.tokens, canCredit_congr hs.balKeys]
    exact hok e he
  unfold updateTronConfirmations
  rw [← hreqdef, hsplit, processConfDeposits_append_ok req cur pre (d :: post) st hokpre]
  obtain ⟨hstpre, _⟩ := processConfDeposits_ok req cur pre st hokpre
  obtain ⟨_, _, _, _, _, huntouched⟩ := processConfDeposits_untouched req cur pre st
  obtain ⟨hrowpre, hcredpre_d⟩ := huntouched d.id hdpre
  have hcan_d : canCredit (processConfDeposits req cur pre st).tokens
      (processConfDeposits req cur pre st).balances d.tokenId d.userId = true :=
    hcc_transport _ hstpre d hmem
  obtain ⟨htokD, hwalD, hsetD, hbalD, hdepD, hcredD, hr2D⟩ :=
    processConfDeposit_characterize req cur (processConfDeposits req cur pre st) d
  have hr2f : (processConfDeposit req cur (processConfDeposits req cur pre st) d).2
      = false := by
    rw [hr2D, hcan_d]
    simp
  rw [processConfDeposits_cons, hr2f]
  simp only [Bool.false_eq_true, if_false]
  have hstableD : Stable st
      (processConfDeposit req cur (processConfDeposits req cur pre st) d).1 :=
    hstpre.comp (processConfDeposit_stable req cur _ d)
  obtain ⟨hpt, hpw, hps, hpb, hpi, hpuntouched⟩ := processConfDeposits_untouched req cur
    post (processConfDeposit req cur (processConfDeposits req cur pre st) d).1
  obtain ⟨hrowpost, hcredpost⟩ := hpuntouched d.id hdpost
  have hokpost : ∀ e ∈ post,
      canCredit (processConfDeposit req cur (processConfDeposits req cur pre st) d).1.tokens
        (processConfDeposit req cur (processConfDeposits req cur pre st) d).1.balances
        e.tokenId e.userId = true := by
    intro e he
    refine hcc_transport _ hstableD e (hsel_sub e ?_)
    rw [hsplit]
    exact List.mem_append_right _ (List.mem_cons_of_mem d he)
  obtain ⟨hstpost, _⟩ := processConfDeposits_ok req cur post
    (processConfDeposit req cur (processConfDeposits req cur pre st) d).1 hokpost
  have hrowD : rowOf
      (processConfDeposit req cur (processConfDeposits req cur pre st) d).1 d.id
      = some (updRow d (confOf cur d) (newStatusOf req cur d)) := by
    unfold rowOf
    rw [hdepD, find?_id_applyDepositUpdate]
    have hfind : (processConfDeposits req cur pre st).deposits.find?
        (fun e => e.id == d.id) = some d := by
      have h2 : rowOf st d.id = some d := find?_id_eq_of_nodup hnd hmem
      exact hrowpre.trans h2
    rw [hfind, Option.map_some', if_pos (by simp)]
    rfl
  have hccond : creditCond req cur d = decide ((req : Int) ≤ confOf cur d) := by
    unfold creditCond
    have hnc : (!(d.status == "confirmed")) = true := by
      rcases hstatus with h | h <;> rw [h] <;> decide
    rw [hnc, Bool.and_true]
  have hcredD_d : creditsFor
      (processConfDeposit req cur (processConfDeposits req cur pre st) d).1 d.id
      = creditsFor st d.id
        ++ (if (req : Int) ≤ confOf cur d then [((d.id : Nat), d.amount)] else []) := by
    unfold creditsFor
    rw [hcredD, List.filter_append, hccond, hcan_d, Bool.and_true]
    rw [show List.filter (fun p => p.1 == d.id)
        (processConfDeposits req cur pre st).credits = creditsFor st d.id from hcredpre_d]
    congr 1
    by_cases hle : (req : Int) ≤ confOf cur d
    · rw [if_pos (decide_eq_true hle), if_pos hle]
      simp
    · rw [if_neg (by simpa using hle), if_neg hle]
      rfl
  exact ⟨hrowpost.trans hrowD, hcredpost.trans hcredD_d, hstableD.comp hstpost,
    CreditsOK_of_stable (hstableD.comp hstpost) hok⟩

/-- A deposit whose stored status is `'confirmed'` is not selected by a pass:
its row and its credit history are untouched, whether or not the pass aborts. -/
theorem updateTronConfirmations_confirmed_frozen {st : TrackerState}
    {network : String} {cur : Int} {j : Nat} {e : Deposit}
    (hrow : rowOf st j = some e) (hconf : e.status = "confirmed")
    (hnd : (st.deposits.map Deposit.id).Nodup) :
    rowOf (updateTronConfirmations network cur st) j = some e
    ∧ creditsFor (updateTronConfirmations network cur st) j = creditsFor st j
    ∧ (updateTronConfirmations network cur st).deposits.map Deposit.id
        = st.deposits.map Deposit.id := by
  have hne : ∀ x ∈ pendingDepositsFor "trx" network st.deposits, x.id ≠ j := by
    intro x hx hxj
    obtain ⟨hxmem, hxpred⟩ := List.mem_filter.mp hx
    have hxe : x = e := by
      have h1 : st.deposits.find? (fun y => y.id == x.id) = some x :=
        find?_id_eq_of_nodup hnd hxmem
      rw [hxj] at h1
      have h2 : st.deposits.find? (fun y => y.id == j) = some e := hrow
      rw [h1] at h2
      exact (Option.some.injEq _ _).mp h2
    rw [hxe, hconf] at hxpred
    simp at hxpred
  obtain ⟨_, _, _, _, hids, huntouched⟩ := processConfDeposits_untouched
    (CONFIRMATION_BLOCKS "trx" network) cur
    (pendingDepositsFor "trx" network st.deposits) st
  obtain ⟨h1, h2⟩ := huntouched j hne
  exact ⟨h1.trans hrow, h2, hids⟩

/-- Iterated version of `updateTronConfirmations_confirmed_frozen`: once
confirmed, a row is excluded from every later pass and never credited again. -/
theorem runTronPasses_confirmed_frozen (network : String) :
    ∀ (heights : List Int) {st : TrackerState} {j : Nat} {e : Deposit},
    rowOf st j = some e → e.status = "confirmed" →
    (st.deposits.map Deposit.id).Nodup →
    rowOf (runTronPasses network heights st) j = some e
    ∧ creditsFor (runTronPasses network heights st) j = creditsFor st j
    ∧ (runTronPasses network heights st).deposits.map Deposit.id
        = st.deposits.map Deposit.id
  | [], st, j, e => fun hrow _ _ => ⟨hrow, Eq.refl _, Eq.refl _⟩
  | h :: hs, st, j, e => fun hrow hconf hnd => by
    obtain ⟨h1, h2, h3⟩ :=
      @updateTronConfirmations_confirmed_frozen st network h j e hrow hconf hnd
    obtain ⟨ih1, ih2, ih3⟩ := runTronPasses_confirmed_frozen network hs h1 hconf
      (by rw [h3]; exact hnd)
    exact ⟨ih1, ih2.trans h2, ih3.trans h3⟩

/-- Passes whose height is below the confirmation threshold for `d` update its
row to `'confirming'` with the recomputed (possibly smaller or negative)
confirmations and never credit it. -/
theorem runTronPasses_below_threshold {network : String} {d : Deposit}
    (hchain : d.blockchain = "trx") (hnet : d.network = network)
    (hbn : d.blockNumber.isSome) :
    ∀ (heights : List Int) (st : TrackerState) (c : Int) (s : String),
    (∀ h ∈ heights, confOf h d < (CONFIRMATION_BLOCKS "trx" network : Int)) →
    rowOf st d.id = some (updRow d c s) →
    (s = "pending" ∨ s = "confirming") →
    CreditsOK st → (st.deposits.map Deposit.id).Nodup →
    ∃ c' s', rowOf (runTronPasses network heights st) d.id = some (updRow d c' s')
      ∧ (s' = "pending" ∨ s' = "confirming")
      ∧ creditsFor (runTronPasses network heights st) d.id = creditsFor st d.id
      ∧ CreditsOK (runTronPasses network heights st)
      ∧ (runTronPasses network heights st).deposits.map Deposit.id
          = st.deposits.map Deposit.id
  | [], st, c, s => fun _ hrow hs hok hnd =>
    ⟨c, s, hrow, hs, Eq.refl _, hok, Eq.refl _⟩
  | h :: hs, st, c, s => fun hbelow hrow hsval hok hnd => by
    have hmem : updRow d c s ∈ st.deposits := List.mem_of_find?_eq_some hrow
    obtain ⟨htrow, htcred, htstable, htok⟩ :=
      @updateTronConfirmations_target st network h (updRow d c s) hmem hchain hnet
        hsval hbn hok hnd
    have hlt : confOf h d < (CONFIRMATION_BLOCKS "trx" network : Int) :=
      hbelow h (List.mem_cons_self h hs)
    have hns : newStatusOf (CONFIRMATION_BLOCKS "trx" network) h (updRow d c s)
        = "confirming" := by
      unfold newStatusOf
      exact if_neg (by exact fun hcontra => absurd hcontra (not_le.mpr hlt))
    have hnocred : creditsFor (updateTronConfirmations network h st) d.id
        = creditsFor st d.id := by
      have h1 : creditsFor (updateTronConfirmations network h st) d.id
          = creditsFor st d.id
            ++ (if (CONFIRMATION_BLOCKS "trx" network : Int) ≤ confOf h d
                then [((d.id : Nat), d.amount)] else []) := htcred
      rw [h1, if_neg (not_le.mpr hlt), List.append_nil]
    have hrow1 : rowOf (updateTronConfirmations network h st) d.id
        = some (updRow d (confOf h d) "confirming") := by
      have h1 : rowOf (updateTronConfirmations network h st) d.id
          = some (updRow d (confOf h d)
              (newStatusOf (CONFIRMATION_BLOCKS "trx" network) h (updRow d c s))) := htrow
      rw [h1, hns]
    have hnd1 : ((updateTronConfirmations network h st).deposits.map Deposit.id).Nodup := by
      rw [htstable.ids]
      exact hnd
    obtain ⟨c', s', ih1, ih2, ih3, ih4, ih5⟩ :=
      runTronPasses_below_threshold hchain hnet hbn hs
        (updateTronConfirmations network h st) (confOf h d) "confirming" 
        (fun h2 hh2 => hbelow h2 (List.mem_cons_of_mem h hh2)) hrow1 (Or.inr (Eq.refl _))
        htok hnd1
    exact ⟨c', s', ih1, ih2, ih3.trans hnocred, ih4, ih5.trans htstable.ids⟩

/-- C1: For every deposit, the wallet balance is credited with the deposit's
amount exactly once, on the deposit's first transition into status
`'confirmed'` (no credit in any earlier pass below the threshold, one credit
event carrying exactly `(d.id, d.amount)` in the confirming pass, none in any
later pass); and a deposit whose status is already `'confirmed'` is never
credited again by any later confirmation-update pass.  Hypotheses: the
deposit's token row and spot balance row exist for every deposit (the spec's
well-configured-ledger assumption, §4.6), and deposit ids are unique. -/
theorem deposit_credited_exactly_once
    (st : TrackerState) (network : String) (d : Deposit)
    (preH postH : List Int) (cur : Int)
    (hmem : d ∈ st.deposits) (hchain : d.blockchain = "trx")
    (hnet : d.network = network)
    (hstatus : d.status = "pending" ∨ d.status = "confirming")
    (hbn : d.blockNumber.isSome)
    (hok : CreditsOK st) (hnd : (st.deposits.map Deposit.id).Nodup)
    (hcred0 : creditsFor st d.id = [])
    (hpre : ∀ h ∈ preH, confOf h d < (CONFIRMATION_BLOCKS "trx" network : Int))
    (hcur : (CONFIRMATION_BLOCKS "trx" network : Int) ≤ confOf cur d) :
    creditsFor (runTronPasses network preH st) d.id = []
    ∧ creditsFor (runTronPasses network (preH ++ cur :: postH) st) d.id
        = [((d.id : Nat), d.amount)]
    ∧ (rowOf (runTronPasses network (preH ++ cur :: postH) st) d.id).map Deposit.status
        = some "confirmed"
    ∧ ∀ e ∈ st.deposits, e.status = "confirmed" →
        creditsFor (runTronPasses network (preH ++ cur :: postH) st) e.id
          = creditsFor st e.id := by
  have hrow0 : rowOf st d.id = some (updRow d d.confirmations d.status) :=
    find?_id_eq_of_nodup hnd hmem
  obtain ⟨c1, s1, hrowPre, hs1, hcredPre, hokPre, hidsPre⟩ :=
    runTronPasses_below_threshold hchain hnet hbn preH st d.confirmations d.status
      hpre hrow0 hstatus hok hnd
  have hndPre : ((runTronPasses network preH st).deposits.map Deposit.id).Nodup := by
    rw [hidsPre]
    exact hnd
  have hc1 : creditsFor (runTronPasses network preH st) d.id = [] :=
    hcredPre.trans hcred0
  have hsplitRun : runTronPasses network (preH ++ cur :: postH) st
      = runTronPasses network postH
          (updateTronConfirmations network cur (runTronPasses network preH st)) := by
    unfold runTronPasses
    rw [List.foldl_append]
    rfl
  have hmem1 : updRow d c1 s1 ∈ (runTronPasses network preH st).deposits :=
    List.mem_of_find?_eq_some hrowPre
  obtain ⟨htrow, htcred, htstable, _⟩ :=
    @updateTronConfirmations_target (runTronPasses network preH st) network cur
      (updRow d c1 s1) hmem1 hchain hnet hs1 hbn hokPre hndPre
  have hnsC : newStatusOf (CONFIRMATION_BLOCKS "trx" network) cur (updRow d c1 s1)
      = "confirmed" := by
    unfold newStatusOf
    exact if_pos hcur
  have hrowC : rowOf
      (updateTronConfirmations network cur (runTronPasses network preH st)) d.id
      = some (updRow d (confOf cur d) "confirmed") := by
    have h1 : rowOf
        (updateTronConfirmations network cur (runTronPasses network preH st)) d.id
        = some (updRow d (confOf cur d)
            (newStatusOf (CONFIRMATION_BLOCKS "trx" network) cur (updRow d c1 s1))) := htrow
    rw [h1, hnsC]
  have hcredC : creditsFor
      (updateTronConfirmations network cur (runTronPasses network preH st)) d.id
      = [((d.id : Nat), d.amount)] := by
    have h1 : creditsFor
        (updateTronConfirmations network cur (runTronPasses network preH st)) d.id
        = creditsFor (runTronPasses network preH st) d.id
          ++ (if (CONFIRMATION_BLOCKS "trx" network : Int) ≤ confOf cur d
              then [((d.id : Nat), d.amount)] else []) := htcred
    rw [h1, hc1, if_pos hcur, List.nil_append]
  have hndC : ((updateTronConfirmations network cur
      (runTronPasses network preH st)).deposits.map Deposit.id).Nodup := by
    rw [htstable.ids]
    exact hndPre
  obtain ⟨hfrow, hfcred, _⟩ := runTronPasses_confirmed_frozen network postH hrowC
    (Eq.refl "confirmed") hndC
  refine ⟨hc1, ?_, ?_, ?_⟩
  · rw [hsplitRun]
    exact hfcred.trans hcredC
  · rw [hsplitRun, hfrow]
    rfl
  · intro e he hconf
    have hrowe : rowOf st e.id = some e := find?_id_eq_of_nodup hnd he
    obtain ⟨_, hcredAll, _⟩ := runTronPasses_confirmed_frozen network
      (preH ++ cur :: postH) hrowe hconf hnd
    exact hcredAll

/-- C7 (amended): when `currentHeight − blockNumber` is negative for a
selected deposit, the pass persists that negative difference itself as
`confirmations` (not zero), sets the status to `'confirming'`, and performs no
balance mutation for that deposit. -/
theorem negative_confirmations_persisted
    (st : TrackerState) (network : String) (cur : Int) (d : Deposit)
    (hmem : d ∈ st.deposits) (hchain : d.blockchain = "trx")
    (hnet : d.network = network)
    (hstatus : d.status = "pending" ∨ d.status = "confirming")
    (hbn : d.blockNumber.isSome)
    (hok : CreditsOK st) (hnd : (st.deposits.map Deposit.id).Nodup)
    (hneg : confOf cur d < 0) :
    rowOf (updateTronConfirmations network cur st) d.id
      = some (updRow d (confOf cur d) "confirming")
    ∧ creditsFor (updateTronConfirmations network cur st) d.id = creditsFor st d.id := by
  obtain ⟨htrow, htcred, _, _⟩ :=
    @updateTronConfirmations_target st network cur d hmem hchain hnet hstatus hbn hok hnd
  have hlt : ¬ (CONFIRMATION_BLOCKS "trx" network : Int) ≤ confOf cur d := by
    intro hc
    have h0 : (0 : Int) ≤ (CONFIRMATION_BLOCKS "trx" network : Int) := Int.natCast_nonneg _
    omega
  have hns : newStatusOf (CONFIRMATION_BLOCKS "trx" network) cur d = "confirming" := by
    unfold newStatusOf
    exact if_neg hlt
  refine ⟨?_, ?_⟩
  · rw [htrow, hns]
  · rw [htcred, if_neg hlt, List.append_nil]

/-- C10: if the credit of one selected deposit `d` fails (token row or spot
balance row missing), the thrown error ends the pass: deposits after `d` in
the selection are neither updated nor credited, while `d` itself was already
persisted as `'confirmed'` just before the credit attempt, is therefore
excluded from every future pass, and remains permanently uncredited. -/
theorem credit_failure_aborts_pass
    (st : TrackerState) (network : String) (cur : Int) (d : Deposit)
    (pre post : List Deposit)
    (hsel : pendingDepositsFor "trx" network st.deposits = pre ++ d :: post)
    (hpreok : ∀ e ∈ pre, canCredit st.tokens st.balances e.tokenId e.userId = true)
    (hfail : canCredit st.tokens st.balances d.tokenId d.userId = false)
    (hcond : (CONFIRMATION_BLOCKS "trx" network : Int) ≤ confOf cur d)
    (hnd : (st.deposits.map Deposit.id).Nodup)
    (hcred0 : creditsFor st d.id = []) :
    rowOf (updateTronConfirmations network cur st) d.id
      = some (updRow d (confOf cur d) "confirmed")
    ∧ creditsFor (updateTronConfirmations network cur st) d.id = []
    ∧ (∀ e ∈ post,
        rowOf (updateTronConfirmations network cur st) e.id = rowOf st e.id
        ∧ creditsFor (updateTronConfirmations network cur st) e.id = creditsFor st e.id)
    ∧ ∀ heights : List Int,
        creditsFor (runTronPasses network heights
          (updateTronConfirmations network cur st)) d.id = []
        ∧ (rowOf (runTronPasses network heights
            (updateTronConfirmations network cur st)) d.id).map Deposit.status
          = some "confirmed" := by
  set req := CONFIRMATION_BLOCKS "trx" network with hreqdef
  have hdsel : d ∈ pendingDepositsFor "trx" network st.deposits := by
    rw [hsel]
    exact List.mem_append_right _ (List.mem_cons_self d post)
  obtain ⟨hdmem, hdpred⟩ := List.mem_filter.mp hdsel
  simp only [Bool.and_eq_true, Bool.or_eq_true, beq_iff_eq] at hdpred
  have hstat : d.status = "pending" ∨ d.status = "confirming" := hdpred.1.2
  have hselnd : ((pendingDepositsFor "trx" network st.deposits).map Deposit.id).Nodup :=
    pendingDepositsFor_nodup hnd
  rw [hsel, List.map_append, List.map_cons, List.nodup_append] at hselnd
  obtain ⟨hndpre, hndcons, hdisj⟩ := hselnd
  rw [List.nodup_cons] at hndcons
  have hdpre : ∀ e ∈ pre, e.id ≠ d.id := by
    intro e he heq
    exact hdisj (List.mem_map_of_mem Deposit.id he)
      (heq ▸ List.mem_cons_self d.id (post.map Deposit.id))
  have hpostpre : ∀ e ∈ post, ∀ x ∈ pre, x.id ≠ e.id := by
    intro e he x hx heq
    exact hdisj (List.mem_map_of_mem Deposit.id hx)
      (heq ▸ List.mem_cons_of_mem d.id (List.mem_map_of_mem Deposit.id he))
  have hdpost : ∀ e ∈ post, d.id ≠ e.id := by
    intro e he heq
    exact hndcons.1 (heq ▸ List.mem_map_of_mem Deposit.id he)
  unfold updateTronConfirmations
  rw [← hreqdef, hsel, processConfDeposits_append_ok req cur pre (d :: post) st hpreok]
  obtain ⟨hstpre, _⟩ := processConfDeposits_ok req cur pre st hpreok
  obtain ⟨_, _, _, _, _, huntouched⟩ := processConfDeposits_untouched req cur pre st
  obtain ⟨hrowpre, hcredpre_d⟩ := huntouched d.id hdpre
  have hcanPre_d : canCredit (processConfDeposits req cur pre st).tokens
      (processConfDeposits req cur pre st).balances d.tokenId d.userId = false := by
    rw [hstpre.tokens, canCredit_congr hstpre.balKeys]
    exact hfail
  obtain ⟨htokD, _, _, hbalD, hdepD, hcredD, hr2D⟩ :=
    processConfDeposit_characterize req cur (processConfDeposits req cur pre st) d
  have hccondT : creditCond req cur d = true := by
    unfold creditCond
    rw [Bool.and_eq_true, decide_eq_true_eq]
    refine ⟨hcond, ?_⟩
    simp only [Bool.not_eq_eq_eq_not, Bool.not_true, beq_eq_false_iff_ne]
    rcases hstat with h | h <;> rw [h] <;> decide
  have hr2t : (processConfDeposit req cur (processConfDeposits req cur pre st) d).2
      = true := by
    rw [hr2D, hccondT, hcanPre_d]
    rfl
  rw [processConfDeposits_cons, hr2t, if_pos (Eq.refl true)]
  have hrowD : rowOf
      (processConfDeposit req cur (processConfDeposits req cur pre st) d).1 d.id
      = some (updRow d (confOf cur d) "confirmed") := by
    unfold rowOf
    rw [hdepD, find?_id_applyDepositUpdate]
    have hfind : (processConfDeposits req cur pre st).deposits.find?
        (fun e => e.id == d.id) = some d :=
      hrowpre.trans (find?_id_eq_of_nodup hnd hdmem)
    rw [hfind, Option.map_some', if_pos (by simp)]
    have hns : newStatusOf req cur d = "confirmed" := by
      unfold newStatusOf
      exact if_pos hcond
    rw [show ({ d with confirmations := confOf cur d, status := newStatusOf req cur d }
        : Deposit) = updRow d (confOf cur d) (newStatusOf req cur d) from Eq.refl _, hns]
  have hcredZ : creditsFor
      (processConfDeposit req cur (processConfDeposits req cur pre st) d).1 d.id = [] := by
    unfold creditsFor
    rw [hcredD, hcanPre_d, Bool.and_false]
    simp only [Bool.false_eq_true, if_false, List.append_nil]
    exact hcredpre_d.trans hcred0
  have hidsD : (processConfDeposit req cur
        (processConfDeposits req cur pre st) d).1.deposits.map Deposit.id
      = st.deposits.map Deposit.id :=
    (hstpre.comp (processConfDeposit_stable req cur _ d)).ids
  have hndD : ((processConfDeposit req cur
      (processConfDeposits req cur pre st) d).1.deposits.map Deposit.id).Nodup := by
    rw [hidsD]
    exact hnd
  refine ⟨hrowD, hcredZ, ?_, ?_⟩
  · intro e he
    obtain ⟨hrowpreE, hcredpreE⟩ := huntouched e.id (hpostpre e he)
    constructor
    · exact (rowOf_processConfDeposit_ne req cur _ d e.id (hdpost e he)).trans hrowpreE
    · exact (creditsFor_processConfDeposit_ne req cur _ d e.id (hdpost e he)).trans hcredpreE
  · intro heights
    obtain ⟨hfrow, hfcred, _⟩ := runTronPasses_confirmed_frozen network heights hrowD
      (Eq.refl "confirmed") hndD
    exact ⟨hfcred.trans hcredZ, by rw [hfrow]; rfl⟩

/-- Concrete Tron deposit used to exercise the confirmation updater. -/
def c1Deposit : Deposit :=
  { id := 0, userId := "u1", walletId := "w1", tokenId := "t1", txHash := "h1",
    amount := "1.5", blockchain := "trx", network := "mainnet",
    networkVersion := "NATIVE", blockNumber := some 100, status := "pending",
    confirmations := 0,
    metadata := { fromAddr := "a", contractAddress := none, blockHash := "b" } }

/-- The TRX token row for the concrete states. -/
def c1Token : Token :=
  { id := "t1", symbol := "TRX", baseSymbol := none, blockchain := "trx",
    contractAddress := none, networkVersion := "NATIVE", decimals := 6,
    isActive := true }

/-- The matching spot balance row for the concrete states. -/
def c1Balance : WalletBalance :=
  { userId := "u1", baseSymbol := "TRX", type := "spot", balance := 0 }

/-- A fully creditable one-deposit state. -/
def c1State : TrackerState :=
  { deposits := [c1Deposit], wallets := [], tokens := [c1Token],
    balances := [c1Balance], settings := [], credits := [], processedLog := [] }

theorem c1State_creditsOK : CreditsOK c1State := by
  intro e he
  simp only [c1State] at he
  rw [List.mem_singleton] at he
  subst he
  decide

theorem deposit_credited_exactly_once_witness :
    creditsFor (runTronPasses "mainnet" [(110 : Int)] c1State) 0 = []
    ∧ creditsFor (runTronPasses "mainnet"
        ([(110 : Int)] ++ (125 : Int) :: [(130 : Int)]) c1State) 0 = [(0, "1.5")] := by
  have h := deposit_credited_exactly_once c1State "mainnet" c1Deposit
    [(110 : Int)] [(130 : Int)] 125 (by decide) (by decide) (by decide) (by decide)
    (by decide) c1State_creditsOK (by decide) (by decide) (by decide) (by decide)
  exact ⟨h.1, h.2.1⟩

/-- C7 counterexample: the claim says the persisted confirmations value is
zero when `currentHeight − blockNumber` is negative; the pass at height 97
over a deposit at block 100 persists `-3`, not `0`. -/
theorem negative_confirmations_not_zero :
    (rowOf (updateTronConfirmations "mainnet" 97 c1State) 0).map Deposit.confirmations
      = some (-3)
    ∧ ((-3 : Int) ≠ 0) := by decide

theorem negative_confirmations_persisted_witness :
    rowOf (updateTronConfirmations "mainnet" 97 c1State) 0
      = some (updRow c1Deposit (-3) "confirming")
    ∧ creditsFor (updateTronConfirmations "mainnet" 97 c1State) 0
        = creditsFor c1State 0 := by
  have h := negative_confirmations_persisted c1State "mainnet" 97 c1Deposit
    (by decide) (by decide) (by decide) (by decide) (by decide) c1State_creditsOK
    (by decide) (by decide)
  exact ⟨h.1, h.2⟩

/-- A deposit whose user has no spot balance row: its credit throws. -/
def c10Deposit : Deposit :=
  { id := 0, userId := "nobody", walletId := "w1", tokenId := "t1", txHash := "h1",
    amount := "1.5", blockchain := "trx", network := "mainnet",
    networkVersion := "NATIVE", blockNumber := some 100, status := "pending",
    confirmations := 0,
    metadata := { fromAddr := "a", contractAddress := none, blockHash := "b" } }

/-- A second pending deposit later in the same selection. -/
def c10Post : Deposit :=
  { id := 1, userId := "u1", walletId := "w2", tokenId := "t1", txHash := "h2",
    amount := "2", blockchain := "trx", network := "mainnet",
    networkVersion := "NATIVE", blockNumber := some 101, status := "pending",
    confirmations := 0,
    metadata := { fromAddr := "a", contractAddress := none, blockHash := "b" } }

/-- State where the first selected deposit cannot be credited (no balance row
for its user) and a second deposit follows it in the selection. -/
def c10State : TrackerState :=
  { deposits := [c10Deposit, c10Post], wallets := [], tokens := [c1Token],
    balances := [c1Balance], settings := [], credits := [], processedLog := [] }

theorem credit_failure_aborts_pass_witness :
    creditsFor (updateTronConfirmations "mainnet" 125 c10State) 0 = []
    ∧ rowOf (updateTronConfirmations "mainnet" 125 c10State) 1 = rowOf c10State 1
    ∧ creditsFor (runTronPasses "mainnet" [(130 : Int)]
        (updateTronConfirmations "mainnet" 125 c10State)) 0 = [] := by
  have h := credit_failure_aborts_pass c10State "mainnet" 125 c10Deposit [] [c10Post]
    (by decide) (by decide) (by decide) (by decide) (by decide) (by decide)
  exact ⟨h.2.1, (h.2.2.1 c10Post (by decide)).1, (h.2.2.2 [(130 : Int)]).1⟩

/-! ## EVM transaction and block processing

`processEvmTransaction` loads the chain's wallets, early-returns unless
`tx.to` (lowercased) is a monitored wallet address, resolves the token
(native vs. contract at `tx.to`), computes the amount
(`getTransactionAmount`), and saves a `pending` deposit. -/

/-- A receipt log as `contract.interface.parseLog` decodes it: `name` is the
event name (`"Transfer"` for ERC-20 transfers), `toAddr`/`value` its decoded
arguments. -/
structure EvmLog where
  name : String
  toAddr : String
  value : Nat
  deriving DecidableEq, Repr

/-- An EVM transaction as `provider.getTransaction` returns it, together with
the receipt logs `tx.wait()` would return; `value` is the raw wei amount and
`data` the calldata hex string. -/
structure EvmTx where
  hash : String
  fromAddr : String
  toAddr : Option String
  value : Nat
  data : String
  blockNumber : Option Int
  blockHash : String
  logs : List EvmLog
  deriving DecidableEq, Repr

/-- A fetched EVM block: the transactions the per-hash fetch loop obtained
(nulls and per-transaction fetch errors are logged and skipped by the
source, so they simply do not appear here). -/
structure EvmBlock where
  transactions : List EvmTx
  deriving DecidableEq, Repr

def padDigitsTo (len : Nat) (l : List Nat) : List Nat :=
  l ++ List.replicate (len - l.length) 0

/-- ethers `utils.formatUnits(value, decimals)`: the exact decimal string
`whole.fraction`, fraction left-padded to `decimals` digits with trailing
zeros stripped and at least one digit kept. -/
def formatUnits (v decimals : Nat) : String :=
  let p := 10 ^ decimals
  let fracLE := (padDigitsTo decimals (toDigitsLE (v % p) (v % p))).dropWhile
    (fun d => d == 0)
  let fracDigits := if fracLE.isEmpty then [0] else fracLE.reverse
  natToString (v / p) ++ "." ++ String.mk (fracDigits.map digitChar)

/-- Modelled from the spec: the Storage Gateway's `insertDeposit` "must be
idempotent on `(txHash, walletId, tokenId)`" (§4.7) and the persisted schema
declares a unique index on those columns (§6).  The deposit entity and the
migration declaring the index are not under `src/`, so the insert is modelled
as the spec's idempotent upsert: a row whose triple is already present
inserts nothing (and the caller's catch swallows any conflict). -/
def insertDeposit (ds : List Deposit) (d : Deposit) : List Deposit :=
  if ds.any (fun e => e.txHash == d.txHash && e.walletId == d.walletId
      && e.tokenId == d.tokenId) then ds
  else ds ++ [d]

/-- `getTokenForTransaction(chain, tx)`: native token when the calldata is
empty or `'0x'`, otherwise the active token whose `contractAddress` is
`tx.to` lowercased. -/
def getTokenForTransaction (chain : String) (tx : EvmTx) (tokens : List Token) :
    Option Token :=
  match tx.toAddr with
  | none => none
  | some toAddr =>
    if tx.data == "" || tx.data == "0x" then
      tokens.find? (fun t => t.blockchain == chain
        && t.networkVersion == "NATIVE" && t.isActive)
    else
      tokens.find? (fun t => t.blockchain == chain
        && t.contractAddress == some (toLowerStr toAddr) && t.isActive)

/-- `getTransactionAmount(tx, token)`: `formatUnits(tx.value, decimals)` for
the native token; for a contract token, find the first receipt log parsing as
`Transfer` and format its `value` argument (null when no such log). -/
def getTransactionAmount (tx : EvmTx) (token : Token) : Option String :=
  if token.networkVersion == "NATIVE" then
    some (formatUnits tx.value token.decimals)
  else
    match tx.logs.find? (fun l => l.name == "Transfer") with
    | none => none
    | some l => some (formatUnits l.value token.decimals)

/-- The deposit row `processEvmTransaction` saves. -/
def mkEvmDeposit (chain network : String) (tx : EvmTx) (wallet : Wallet)
    (token : Token) (amount : String) (freshId : Nat) : Deposit :=
  { id := freshId, userId := wallet.userId, walletId := wallet.id,
    tokenId := token.id, txHash := tx.hash, amount := amount,
    blockchain := chain, network := network,
    networkVersion := token.networkVersion, blockNumber := tx.blockNumber,
    status := "pending", confirmations := 0,
    metadata := { fromAddr := tx.fromAddr,
                  contractAddress := token.contractAddress,
                  blockHash := tx.blockHash } }

/-- The wallet-filter/token/amount pipeline of `processEvmTransaction`,
returning the deposit row to save (`none` at any early return).  The wallet
lookup lowercases both sides, as the source's address map does; `freshId` is
the id the insert would assign. -/
def evmDepositFor (chain network : String) (tx : EvmTx) (wallets : List Wallet)
    (tokens : List Token) (freshId : Nat) : Option Deposit :=
  match tx.toAddr with
  | none => none
  | some toRaw =>
    match (wallets.filter (fun w => w.blockchain == chain && w.network == network)).find?
        (fun w => toLowerStr w.address == toLowerStr toRaw) with
    | none => none
    | some wallet =>
      match getTokenForTransaction chain tx tokens with
      | none => none
      | some token =>
        match getTransactionAmount tx token with
        | none => none
        | some amount => some (mkEvmDeposit chain network tx wallet token amount freshId)

/-- `processEvmTransaction(chain, network, tx)` (its catch swallows errors, so
every early return leaves the state unchanged). -/
def processEvmTransaction (chain network : String) (tx : EvmTx)
    (st : TrackerState) : TrackerState :=
  match evmDepositFor chain network tx st.wallets st.tokens st.deposits.length with
  | none => st
  | some dep => { st with deposits := insertDeposit st.deposits dep }

/-- `processEvmBlock(chain, network, blockNumber, provider)`: fetch the block
(not-found logs a warning and returns without saving), process each
transaction, then save and verify the checkpoint and log the completed block.
The source never invokes `updateEvmConfirmations` here — or anywhere else in
the repository — so block processing leaves existing deposits' confirmations
and status untouched. -/
def processEvmBlock (chain network : String) (blockNumber : Nat)
    (fetch : Nat → Option EvmBlock) (st : TrackerState) : TrackerState :=
  match fetch blockNumber with
  | none => st
  | some block =>
    let st1 := block.transactions.foldl
      (fun s tx => processEvmTransaction chain network tx s) st
    let st2 := saveLastProcessedBlockState chain network blockNumber st1
    { st2 with processedLog := st2.processedLog ++ [blockNumber] }

/-- A pending Ethereum mainnet deposit recorded at block 1000. -/
def c3Deposit : Deposit :=
  { id := 0, userId := "u1", walletId := "w1", tokenId := "tEth", txHash := "0xaa",
    amount := "1.0", blockchain := "eth", network := "mainnet",
    networkVersion := "NATIVE", blockNumber := some 1000, status := "pending",
    confirmations := 0,
    metadata := { fromAddr := "0x1", contractAddress := none, blockHash := "0xbh" } }

def c3State : TrackerState :=
  { deposits := [c3Deposit], wallets := [], tokens := [], balances := [],
    settings := [], credits := [], processedLog := [] }

/-- Chain tip for the C3 run: block 1012 exists (with no transactions) and
nothing else does. -/
def c3Fetch : Nat → Option EvmBlock :=
  fun h => if h == 1012 then some { transactions := [] } else none

/-- C3: processing the EVM block at height 1012 never runs the confirmation
updater — the deposit recorded at block 1000 stays `pending` with 0
confirmations even though 1012 − 1000 = 12 meets the 12-confirmation
requirement for eth mainnet.  The second conjunct shows the repository's own
(never invoked) `updateEvmConfirmations` would have confirmed it. -/
theorem evm_block_processing_skips_confirmations :
    rowOf (processEvmBlock "eth" "mainnet" 1012 c3Fetch c3State) 0 = some c3Deposit
    ∧ (rowOf (updateEvmConfirmations "eth" "mainnet" 1012 c3State) 0).map Deposit.status
        = some "confirmed"
    ∧ (rowOf (updateEvmConfirmations "eth" "mainnet" 1012 c3State) 0).map
        Deposit.confirmations = some 12 := by decide

/-- The monitored wallet of the ERC-20 scenario. -/
def c4Wallet : Wallet :=
  { id := "w1", userId := "u1", address := "0xabc", blockchain := "eth",
    network := "mainnet" }

/-- The active ERC-20 token at contract `0xc`, 6 decimals. -/
def c4Token : Token :=
  { id := "tUsd", symbol := "USDT", baseSymbol := none, blockchain := "eth",
    contractAddress := some "0xc", networkVersion := "ERC20", decimals := 6,
    isActive := true }

/-- An ERC-20 transfer: transaction to the contract `0xC` with non-empty
calldata whose receipt contains `Transfer(from=0x1, to=0xabc, value=5000000)`. -/
def c4Tx : EvmTx :=
  { hash := "0xdead", fromAddr := "0x1", toAddr := some "0xC", value := 0,
    data := "0xa9059cbb", blockNumber := some 1000, blockHash := "0xbh",
    logs := [{ name := "Transfer", toAddr := "0xabc", value := 5000000 }] }

def c4State : TrackerState :=
  { deposits := [], wallets := [c4Wallet], tokens := [c4Token], balances := [],
    settings := [], credits := [], processedLog := [] }

/-- C4: the ERC-20 transfer whose receipt log names the monitored wallet
`0xabc` as recipient produces no deposit at all — the wallet filter tests
`tx.to` (the token contract `0xc`), which is not a monitored wallet, before
the Transfer log is ever decoded.  The other conjuncts show the scenario is
the claim's: the receipt does contain the Transfer log to the monitored
wallet's address, and formatting its value with the token's decimals would
give `"5.0"`. -/
theorem erc20_transfer_produces_no_deposit :
    (processEvmTransaction "eth" "mainnet" c4Tx c4State).deposits = []
    ∧ c4Tx.logs.find? (fun l => l.name == "Transfer")
        = some { name := "Transfer", toAddr := c4Wallet.address, value := 5000000 }
    ∧ getTransactionAmount c4Tx c4Token = some "5.0"
    ∧ formatUnits 5000000 6 = "5.0" := by decide

/-! ## Bitcoin block processing

`checkBitcoinBlocks` walks heights from the checkpoint to the tip; a
not-found block is logged and skipped (`continue`); a thrown fetch error
aborts the tick; `processBitcoinBlock` processes each transaction (its errors
rethrow, aborting the tick) and then saves the checkpoint at the block's
height. -/

/-- One `vout` entry: `scriptPubKey.addresses` (empty when the key is absent)
and `value`.  `value` is carried as its JSON decimal literal; the JavaScript
number parse/print round-trip is not modelled (no claim depends on it). -/
structure BtcVout where
  addresses : List String
  value : String
  deriving DecidableEq, Repr

/-- A Bitcoin transaction as `getblock` verbosity 2 returns it (the fields
the service reads). -/
structure BtcTx where
  txid : String
  vout : List BtcVout
  blockHeight : Option Int
  blockHash : String
  vinFirstAddr : Option String
  deriving DecidableEq, Repr

structure BitcoinBlock where
  height : Nat
  hash : String
  tx : List BtcTx
  deriving DecidableEq, Repr

/-- The deposit row `processBitcoinTransaction` saves for one matched output
address. -/
def mkBtcDeposit (chain network : String) (tx : BtcTx) (out : BtcVout)
    (wallet : Wallet) (tokenId : String) (freshId : Nat) : Deposit :=
  { id := freshId, userId := wallet.userId, walletId := wallet.id,
    tokenId := tokenId, txHash := tx.txid, amount := out.value,
    blockchain := chain, network := network, networkVersion := "NATIVE",
    blockNumber := tx.blockHeight, status := "pending", confirmations := 0,
    metadata := { fromAddr := tx.vinFirstAddr.getD "unknown",
                  contractAddress := none, blockHash := tx.blockHash } }

/-- One address of one output inside `processBitcoinTransaction`'s loops.
`getBitcoinTokenId` throws when no `(symbol BTC, NATIVE)` token row exists;
`none` models that throw (which `processBitcoinTransaction` rethrows). -/
def btcAddrStep (chain network : String) (walletsF : List Wallet) (tx : BtcTx)
    (out : BtcVout) (s : TrackerState) (address : String) : Option TrackerState :=
  if walletsF.any (fun w => w.address == address) then
    match walletsF.find? (fun w => w.address == address) with
    | none => some s
    | some wallet =>
      match s.tokens.find? (fun t => t.symbol == "BTC" && t.networkVersion == "NATIVE") with
      | none => none
      | some token =>
        let dep := mkBtcDeposit chain network tx out wallet token.id s.deposits.length
        some { s with deposits := insertDeposit s.deposits dep }
  else some s

/-- `processBitcoinTransaction(chain, network, tx)`: every output, every
address; `none` is the rethrown error. -/
def processBitcoinTransaction (chain network : String) (tx : BtcTx)
    (st : TrackerState) : Option TrackerState :=
  tx.vout.foldlM (fun s out =>
    out.addresses.foldlM
      (btcAddrStep chain network
        (st.wallets.filter (fun w => w.blockchain == chain && w.network == network))
        tx out) s) st

/-- The transaction loop of `processBitcoinBlock`; the second component
records whether a transaction threw (aborting the block before the
checkpoint save). -/
def processBtcTxs (chain network : String) : List BtcTx → TrackerState →
    TrackerState × Bool
  | [], st => (st, false)
  | tx :: rest, st =>
    match processBitcoinTransaction chain network tx st with
    | some st1 => processBtcTxs chain network rest st1
    | none => (st, true)

/-- Result of `getBitcoinBlock(provider, height)`: a block, a not-found
(falsy) result, or a thrown fetch error. -/
inductive BtcFetch where
  | found (b : BitcoinBlock)
  | notFound
  | fetchErr
  deriving DecidableEq, Repr

def isFound (r : BtcFetch) : Bool :=
  match r with
  | BtcFetch.found _ => true
  | _ => false

def fetchNotErr (fetch : Nat → BtcFetch) (h : Nat) : Bool :=
  match fetch h with
  | BtcFetch.fetchErr => false
  | _ => true

/-- A fetched block reports the height it was fetched at. -/
def fetchHeightOk (fetch : Nat → BtcFetch) (h : Nat) : Bool :=
  match fetch h with
  | BtcFetch.found b => b.height == h
  | _ => true

/-- The height loop of `checkBitcoinBlocks`: skip not-found blocks and keep
going, abort the whole tick on a thrown error or a transaction error, save
the checkpoint (and log completion) after each fully processed block.  The
source iterates this same height sequence in windows of 50; the windows only
affect batch log lines, not the processed sequence (their bounds are
`btcWindows`). -/
def runBtcHeights (network : String) (fetch : Nat → BtcFetch) :
    List Nat → TrackerState → TrackerState
  | [], st => st
  | h :: rest, st =>
    match fetch h with
    | BtcFetch.notFound => runBtcHeights network fetch rest st
    | BtcFetch.fetchErr => st
    | BtcFetch.found b =>
      match processBtcTxs "bitcoin" network b.tx st with
      | (st1, true) => st1
      | (st1, false) =>
        let st2 := saveLastProcessedBlockState "bitcoin" network b.height st1
        runBtcHeights network fetch rest
          { st2 with processedLog := st2.processedLog ++ [b.height] }

/-- The heights one Bitcoin tick attempts: `lastProcessed+1 .. currentHeight`. -/
def btcHeightRange (lastProcessed currentHeight : Nat) : List Nat :=
  List.range' (lastProcessed + 1) (currentHeight - lastProcessed)

/-- `checkBitcoinBlocks(network)` for one tick at tip `currentHeight`. -/
def checkBitcoinBlocksModel (network : String) (fetch : Nat → BtcFetch)
    (currentHeight : Nat) (st : TrackerState) : TrackerState :=
  runBtcHeights network fetch
    (btcHeightRange (getLastProcessedBlockState "bitcoin" network st) currentHeight) st

/-- Number of batch windows of `checkBitcoinBlocks` (`batchSize = 50`). -/
def btcWindowCount (gap : Nat) : Nat := (gap + 49) / 50

/-- The `(height, endBlock)` pairs of `checkBitcoinBlocks`'s batch loop:
starts step by 50 from `lastProcessed+1` while `≤ currentHeight`, and
`endBlock = min(height + batchSize - 1, currentHeight)`. -/
def btcWindows (lastProcessed currentHeight : Nat) : List (Nat × Nat) :=
  (List.range' (lastProcessed + 1) (btcWindowCount (currentHeight - lastProcessed)) 50).map
    (fun h => (h, min (h + 49) currentHeight))

/-- The heights one Tron tick attempts (`checkTronBlocks`): `startBlock =
lastProcessed + 1`, `endBlock = min(startBlock + batchSize, currentBlockNumber)`
with `batchSize = 5`, looping `startBlock .. endBlock` inclusive. -/
def tronTickHeights (lastProcessed currentBlockNumber : Nat) : List Nat :=
  let startBlock := lastProcessed + 1
  let endBlock := min (startBlock + 5) currentBlockNumber
  List.range' startBlock (endBlock + 1 - startBlock)

/-! ## XRP transaction processing -/

/-- An XRP transaction as the expanded `ledger` response carries it.
`Amount` is the raw amount field: a drops string for native XRP (the
issued-currency object form is out of scope of the claims). -/
structure XrpTx where
  TransactionType : String
  Account : String
  Destination : String
  Amount : String
  hash : String
  ledger_index : Option Int
  ledger_hash : String
  deriving DecidableEq, Repr

/-- The deposit row `processXrpTransaction` saves: note `amount := tx.Amount`
verbatim. -/
def mkXrpDeposit (chain network : String) (tx : XrpTx) (wallet : Wallet)
    (tokenId : String) (freshId : Nat) : Deposit :=
  { id := freshId, userId := wallet.userId, walletId := wallet.id,
    tokenId := tokenId, txHash := tx.hash, amount := tx.Amount,
    blockchain := chain, network := network, networkVersion := "NATIVE",
    blockNumber := tx.ledger_index, status := "pending", confirmations := 0,
    metadata := { fromAddr := tx.Account, contractAddress := none,
                  blockHash := tx.ledger_hash } }

/-- `processXrpTransaction(chain, network, tx)`: only `Payment` transactions;
wallet match on `tx.Destination`; `getXrpTokenId` throws when the XRP token
row is missing, which the surrounding catch turns into a no-op. -/
def processXrpTransaction (chain network : String) (tx : XrpTx)
    (st : TrackerState) : TrackerState :=
  if tx.TransactionType == "Payment" then
    let wallets := st.wallets.filter
      (fun w => w.blockchain == chain && w.network == network)
    if wallets.any (fun w => w.address == tx.Destination) then
      match wallets.find? (fun w => w.address == tx.Destination) with
      | none => st
      | some wallet =>
        match st.tokens.find? (fun t => t.symbol == "XRP" && t.networkVersion == "NATIVE") with
        | none => st
        | some token =>
          let dep := mkXrpDeposit chain network tx wallet token.id st.deposits.length
          { st with deposits := insertDeposit st.deposits dep }
    else st
  else st

/-- The spec's amount form, for comparison with the stored amount (§4.4 step
5: "Convert amount to human-decimal string using `token.decimals`"; design
note (c): "A correct implementation should normalize to the token's decimal
form"): the exact decimal string of `raw / 10^decimals`. -/
def specHumanDecimalAmount (raw decimals : Nat) : String :=
  formatUnits raw decimals

theorem mem_insertDeposit_left (ds : List Deposit) (d : Deposit) :
    ∀ e ∈ ds, e ∈ insertDeposit ds d := by
  intro e he
  unfold insertDeposit
  by_cases h : ds.any (fun x => x.txHash == d.txHash && x.walletId == d.walletId
      && x.tokenId == d.tokenId)
  · rw [if_pos h]
    exact he
  · rw [if_neg h]
    exact List.mem_append_left _ he

theorem insertDeposit_triple_mem (ds : List Deposit) (d : Deposit) :
    ∃ e ∈ insertDeposit ds d,
      e.txHash = d.txHash ∧ e.walletId = d.walletId ∧ e.tokenId = d.tokenId := by
  unfold insertDeposit
  by_cases h : ds.any (fun x => x.txHash == d.txHash && x.walletId == d.walletId
      && x.tokenId == d.tokenId)
  · rw [if_pos h]
    obtain ⟨e, he, hp⟩ := List.any_eq_true.mp h
    simp only [Bool.and_eq_true, beq_iff_eq] at hp
    exact ⟨e, he, hp.1.1, hp.1.2, hp.2⟩
  · rw [if_neg h]
    exact ⟨d, List.mem_append_right _ (List.mem_cons_self d []),
      Eq.refl _, Eq.refl _, Eq.refl _⟩

theorem insertDeposit_noop (ds : List Deposit) (d : Deposit)
    (h : ∃ e ∈ ds, e.txHash = d.txHash ∧ e.walletId = d.walletId
      ∧ e.tokenId = d.tokenId) :
    insertDeposit ds d = ds := by
  obtain ⟨e, he, h1, h2, h3⟩ := h
  unfold insertDeposit
  rw [if_pos (List.any_eq_true.mpr ⟨e, he, by simp [h1, h2, h3]⟩)]

theorem evmDepositFor_id (chain network : String) (tx : EvmTx) (ws : List Wallet)
    (ts : List Token) (m n : Nat) :
    evmDepositFor chain network tx ws ts m
      = (evmDepositFor chain network tx ws ts n).map (fun d => { d with id := m }) := by
  unfold evmDepositFor
  cases tx.toAddr with
  | none => rfl
  | some toRaw =>
    dsimp only
    cases hfw : (ws.filter (fun w => w.blockchain == chain && w.network == network)).find?
        (fun w => toLowerStr w.address == toLowerStr toRaw) with
    | none => rfl
    | some wallet =>
      dsimp only
      cases htk : getTokenForTransaction chain tx ts with
      | none => rfl
      | some token =>
        dsimp only
        cases ham : getTransactionAmount tx token with
        | none => rfl
        | some amount => rfl

/-- Monotone facts about an optional fold step: tokens and wallets unchanged,
deposits only grow. -/
theorem foldlM_tracker_mono {α : Type} (f : TrackerState → α → Option TrackerState)
    (hf : ∀ s a s', f s a = some s' → s'.tokens = s.tokens ∧ s'.wallets = s.wallets
      ∧ ∀ e ∈ s.deposits, e ∈ s'.deposits) :
    ∀ (l : List α) (s s' : TrackerState), l.foldlM f s = some s' →
      s'.tokens = s.tokens ∧ s'.wallets = s.wallets
      ∧ ∀ e ∈ s.deposits, e ∈ s'.deposits
  | [], s, s' => by
    intro h
    simp only [List.foldlM] at h
    cases h
    exact ⟨Eq.refl _, Eq.refl _, fun e he => he⟩
  | a :: l, s, s' => by
    intro h
    simp only [List.foldlM] at h
    cases hsa : f s a with
    | none => rw [hsa] at h; exact absurd h (by simp)
    | some sa =>
      rw [hsa] at h
      obtain ⟨h1, h2, h3⟩ := hf s a sa hsa
      obtain ⟨h4, h5, h6⟩ := foldlM_tracker_mono f hf l sa s' (by simpa using h)
      exact ⟨h4.trans h1, h5.trans h2, fun e he => h6 e (h3 e he)⟩

/-- If rerunning each step on a state that already contains its effects is a
no-op, rerunning the whole fold is a no-op. -/
theorem foldlM_tracker_restep {α : Type} (f : TrackerState → α → Option TrackerState)
    (hmono : ∀ s a s', f s a = some s' → s'.tokens = s.tokens ∧ s'.wallets = s.wallets
      ∧ ∀ e ∈ s.deposits, e ∈ s'.deposits)
    (hrestep : ∀ s a sa s1, f s a = some sa → s1.tokens = s.tokens →
      s1.wallets = s.wallets → (∀ e ∈ sa.deposits, e ∈ s1.deposits) → f s1 a = some s1) :
    ∀ (l : List α) (s sa s1 : TrackerState), l.foldlM f s = some sa →
      s1.tokens = s.tokens → s1.wallets = s.wallets →
      (∀ e ∈ sa.deposits, e ∈ s1.deposits) → l.foldlM f s1 = some s1
  | [], s, sa, s1 => by
    intro _ _ _ _
    rfl
  | a :: l, s, sa, s1 => by
    intro h htok hwal hsup
    simp only [List.foldlM] at h ⊢
    cases hsa : f s a with
    | none => rw [hsa] at h; exact absurd h (by simp)
    | some sMid =>
      rw [hsa] at h
      have hrest : l.foldlM f sMid = some sa := by simpa using h
      obtain ⟨hm1, hm2, hm3⟩ := foldlM_tracker_mono f hmono l sMid sa hrest
      have hstep1 : f s1 a = some s1 :=
        hrestep s a sMid s1 hsa htok hwal (fun e he => hsup e (hm3 e he))
      rw [hstep1]
      have hmid : sMid.tokens = s.tokens ∧ sMid.wallets = s.wallets
          ∧ ∀ e ∈ s.deposits, e ∈ sMid.deposits := hmono s a sMid hsa
      exact foldlM_tracker_restep f hmono hrestep l sMid sa s1 hrest
        (htok.trans hmid.1.symm) (hwal.trans hmid.2.1.symm) hsup

theorem btcAddrStep_mono (chain network : String) (walletsF : List Wallet)
    (tx : BtcTx) (out : BtcVout) (s : TrackerState) (address : String)
    (s' : TrackerState)
    (h : btcAddrStep chain network walletsF tx out s address = some s') :
    s'.tokens = s.tokens ∧ s'.wallets = s.wallets
    ∧ ∀ e ∈ s.deposits, e ∈ s'.deposits := by
  unfold btcAddrStep at h
  split at h
  · split at h
    · cases h
      exact ⟨Eq.refl _, Eq.refl _, fun e he => he⟩
    · split at h
      · exact absurd h (by simp)
      · simp only [Option.some.injEq] at h
        subst h
        exact ⟨Eq.refl _, Eq.refl _, mem_insertDeposit_left _ _⟩
  · cases h
    exact ⟨Eq.refl _, Eq.refl _, fun e he => he⟩

theorem btcAddrStep_restep (chain network : String) (walletsF : List Wallet)
    (tx : BtcTx) (out : BtcVout) (s : TrackerState) (address : String)
    (sa s1 : TrackerState)
    (hstep : btcAddrStep chain network walletsF tx out s address = some sa)
    (htok : s1.tokens = s.tokens) (_hwal : s1.wallets = s.wallets)
    (hsup : ∀ e ∈ sa.deposits, e ∈ s1.deposits) :
    btcAddrStep chain network walletsF tx out s1 address = some s1 := by
  unfold btcAddrStep at hstep ⊢
  by_cases hany : walletsF.any (fun w => w.address == address)
  · rw [if_pos hany] at hstep ⊢
    cases hfw : walletsF.find? (fun w => w.address == address) with
    | none =>
      rw [hfw] at hstep
    | some wallet =>
      rw [hfw] at hstep
      cases htk : s.tokens.find?
          (fun t => t.symbol == "BTC" && t.networkVersion == "NATIVE") with
      | none =>
        rw [htk] at hstep
        exact absurd hstep (by simp)
      | some token =>
        rw [htk] at hstep
        simp only [Option.some.injEq] at hstep
        have htk1 : s1.tokens.find?
            (fun t => t.symbol == "BTC" && t.networkVersion == "NATIVE") = some token := by
          rw [htok, htk]
        rw [htk1]
        have htriple : ∃ e ∈ s1.deposits, e.txHash = tx.txid ∧ e.walletId = wallet.id
            ∧ e.tokenId = token.id := by
          obtain ⟨e, he, h1, h2, h3⟩ := insertDeposit_triple_mem s.deposits
            (mkBtcDeposit chain network tx out wallet token.id s.deposits.length)
          refine ⟨e, hsup e ?_, h1, h2, h3⟩
          rw [← hstep]
          exact he
        simp only [Option.some.injEq]
        have hins : insertDeposit s1.deposits
            (mkBtcDeposit chain network tx out wallet token.id s1.deposits.length)
            = s1.deposits := insertDeposit_noop _ _ htriple
        rw [hins]
  · rw [if_neg hany] at hstep ⊢

theorem processBitcoinTransaction_mono (chain network : String) (tx : BtcTx)
    (st st1 : TrackerState)
    (h : processBitcoinTransaction chain network tx st = some st1) :
    st1.tokens = st.tokens ∧ st1.wallets = st.wallets
    ∧ ∀ e ∈ st.deposits, e ∈ st1.deposits := by
  unfold processBitcoinTransaction at h
  exact foldlM_tracker_mono _
    (fun s out s' hs => foldlM_tracker_mono _
      (fun s2 a s2' hs2 => btcAddrStep_mono chain network _ tx out s2 a s2' hs2)
      out.addresses s s' hs)
    tx.vout st st1 h

/-- C2: reprocessing a transaction that already produced its deposits does
not create a second row for any `(txHash, walletId, tokenId)`: processing an
EVM transaction is idempotent, and reprocessing a Bitcoin transaction leaves
the state unchanged. -/
theorem deposit_insertion_idempotent :
    (∀ (chain network : String) (tx : EvmTx) (st : TrackerState),
      processEvmTransaction chain network tx (processEvmTransaction chain network tx st)
        = processEvmTransaction chain network tx st)
    ∧ ∀ (chain network : String) (tx : BtcTx) (st st1 : TrackerState),
      processBitcoinTransaction chain network tx st = some st1 →
      processBitcoinTransaction chain network tx st1 = some st1 := by
  constructor
  · intro chain network tx st
    unfold processEvmTransaction
    cases hdep : evmDepositFor chain network tx st.wallets st.tokens
        st.deposits.length with
    | none => simp only [hdep]
    | some dep =>
      simp only [hdep]
      have h2 : evmDepositFor chain network tx st.wallets st.tokens
          (insertDeposit st.deposits dep).length
          = some { dep with id := (insertDeposit st.deposits dep).length } := by
        rw [evmDepositFor_id chain network tx st.wallets st.tokens
          (insertDeposit st.deposits dep).length st.deposits.length, hdep]
        rfl
      simp only [h2]
      have hins : insertDeposit (insertDeposit st.deposits dep)
          { dep with id := (insertDeposit st.deposits dep).length }
          = insertDeposit st.deposits dep :=
        insertDeposit_noop _ _ (insertDeposit_triple_mem st.deposits dep)
      rw [hins]
  · intro chain network tx st st1 h
    have hmono := processBitcoinTransaction_mono chain network tx st st1 h
    unfold processBitcoinTransaction at h ⊢
    rw [hmono.2.1]
    exact foldlM_tracker_restep _
      (fun s out s' hs => foldlM_tracker_mono _
        (fun s2 a s2' hs2 => btcAddrStep_mono chain network _ tx out s2 a s2' hs2)
        out.addresses s s' hs)
      (fun s out sa s1' hs htok hwal hsup => foldlM_tracker_restep _
        (fun s2 a s2' hs2 => btcAddrStep_mono chain network _ tx out s2 a s2' hs2)
        (fun s2 a sa2 s12 hs2 ht hw hsup2 =>
          btcAddrStep_restep chain network _ tx out s2 a sa2 s12 hs2 ht hw hsup2)
        out.addresses s sa s1' hs htok hwal hsup)
      tx.vout st st1 st1 h hmono.1 hmono.2.1 (fun e he => he)

def c2BtcWallet : Wallet :=
  { id := "wb", userId := "u1", address := "bc1q1", blockchain := "bitcoin",
    network := "mainnet" }

def c2BtcToken : Token :=
  { id := "tBtc", symbol := "BTC", baseSymbol := none, blockchain := "bitcoin",
    contractAddress := none, networkVersion := "NATIVE", decimals := 8,
    isActive := true }

def c2BtcVout : BtcVout := { addresses := ["bc1q1"], value := "0.1" }

def c2BtcTx : BtcTx :=
  { txid := "btx1", vout := [c2BtcVout], blockHeight := some 800000,
    blockHash := "bh", vinFirstAddr := none }

def c2BtcState : TrackerState :=
  { deposits := [], wallets := [c2BtcWallet], tokens := [c2BtcToken],
    balances := [], settings := [], credits := [], processedLog := [] }

/-- The state after the first processing of `c2BtcTx`. -/
def c2BtcState1 : TrackerState :=
  { c2BtcState with deposits :=
      [mkBtcDeposit "bitcoin" "mainnet" c2BtcTx c2BtcVout c2BtcWallet "tBtc" 0] }

theorem deposit_insertion_idempotent_witness :
    processBitcoinTransaction "bitcoin" "mainnet" c2BtcTx c2BtcState1 = some c2BtcState1 :=
  deposit_insertion_idempotent.2 "bitcoin" "mainnet" c2BtcTx c2BtcState c2BtcState1
    (by decide)

theorem getLastProcessedBlockState_save (chain network : String) (n : Nat)
    (st : TrackerState) :
    getLastProcessedBlockState chain network
      (saveLastProcessedBlockState chain network n st) = n := by
  unfold getLastProcessedBlockState saveLastProcessedBlockState
  rw [lookupSetting_upsertSetting_self]
  exact parseNat_natToString n

/-- Whether the `(symbol BTC, NATIVE)` token row exists (`getBitcoinTokenId`
succeeds). -/
def btcTokenPresent (st : TrackerState) : Bool :=
  (st.tokens.find? (fun t => t.symbol == "BTC" && t.networkVersion == "NATIVE")).isSome

theorem btcAddrStep_frame (chain network : String) (walletsF : List Wallet)
    (tx : BtcTx) (out : BtcVout) (s : TrackerState) (address : String)
    (s' : TrackerState)
    (h : btcAddrStep chain network walletsF tx out s address = some s') :
    s'.tokens = s.tokens ∧ s'.settings = s.settings
    ∧ s'.processedLog = s.processedLog := by
  unfold btcAddrStep at h
  split at h
  · split at h
    · cases h
      exact ⟨Eq.refl _, Eq.refl _, Eq.refl _⟩
    · split at h
      · exact absurd h (by simp)
      · simp only [Option.some.injEq] at h
        subst h
        exact ⟨Eq.refl _, Eq.refl _, Eq.refl _⟩
  · cases h
    exact ⟨Eq.refl _, Eq.refl _, Eq.refl _⟩

theorem btcAddrStep_total (chain network : String) (walletsF : List Wallet)
    (tx : BtcTx) (out : BtcVout) (s : TrackerState) (address : String)
    (htok : btcTokenPresent s = true) :
    ∃ s', btcAddrStep chain network walletsF tx out s address = some s' := by
  unfold btcAddrStep
  by_cases hany : walletsF.any (fun w => w.address == address)
  · rw [if_pos hany]
    cases hfw : walletsF.find? (fun w => w.address == address) with
    | none => exact ⟨s, Eq.refl _⟩
    | some wallet =>
      unfold btcTokenPresent at htok
      cases htk : s.tokens.find?
          (fun t => t.symbol == "BTC" && t.networkVersion == "NATIVE") with
      | none => rw [htk] at htok; exact absurd htok (by simp)
      | some token => exact ⟨_, Eq.refl _⟩
  · rw [if_neg hany]
    exact ⟨s, Eq.refl _⟩

theorem foldlM_tracker_frame {α : Type} (f : TrackerState → α → Option TrackerState)
    (hf : ∀ s a s', f s a = some s' → s'.tokens = s.tokens ∧ s'.settings = s.settings
      ∧ s'.processedLog = s.processedLog) :
    ∀ (l : List α) (s s' : TrackerState), l.foldlM f s = some s' →
      s'.tokens = s.tokens ∧ s'.settings = s.settings
      ∧ s'.processedLog = s.processedLog
  | [], s, s' => by
    intro h
    simp only [List.foldlM] at h
    cases h
    exact ⟨Eq.refl _, Eq.refl _, Eq.refl _⟩
  | a :: l, s, s' => by
    intro h
    simp only [List.foldlM] at h
    cases hsa : f s a with
    | none => rw [hsa] at h; exact absurd h (by simp)
    | some sa =>
      rw [hsa] at h
      obtain ⟨h1, h2, h3⟩ := hf s a sa hsa
      obtain ⟨h4, h5, h6⟩ := foldlM_tracker_frame f hf l sa s' (by simpa using h)
      exact ⟨h4.trans h1, h5.trans h2, h6.trans h3⟩

theorem foldlM_tracker_total {α : Type} (f : TrackerState → α → Option TrackerState)
    (hpres : ∀ s a s', f s a = some s' → s'.tokens = s.tokens)
    (hf : ∀ s a, btcTokenPresent s = true → ∃ s', f s a = some s') :
    ∀ (l : List α) (s : TrackerState), btcTokenPresent s = true →
      ∃ s', l.foldlM f s = some s' ∧ btcTokenPresent s' = true
  | [], s => fun htok => ⟨s, Eq.refl _, htok⟩
  | a :: l, s => by
    intro htok
    obtain ⟨sa, hsa⟩ := hf s a htok
    have htoka : btcTokenPresent sa = true := by
      unfold btcTokenPresent
      rw [hpres s a sa hsa]
      exact htok
    obtain ⟨s', hs', htok'⟩ := foldlM_tracker_total f hpres hf l sa htoka
    refine ⟨s', ?_, htok'⟩
    simp only [List.foldlM, hsa]
    simpa using hs'

theorem processBitcoinTransaction_total (network : String) (tx : BtcTx)
    (st : TrackerState) (htok : btcTokenPresent st = true) :
    ∃ st', processBitcoinTransaction "bitcoin" network tx st = some st'
      ∧ btcTokenPresent st' = true
      ∧ st'.tokens = st.tokens ∧ st'.settings = st.settings
      ∧ st'.processedLog = st.processedLog := by
  obtain ⟨st', hst', htok'⟩ := foldlM_tracker_total
    (fun s out => out.addresses.foldlM
      (btcAddrStep "bitcoin" network
        (st.wallets.filter (fun w => w.blockchain == "bitcoin" && w.network == network))
        tx out) s)
    (fun s out s' hs => (foldlM_tracker_frame _
      (fun s2 a s2' hs2 => btcAddrStep_frame "bitcoin" network _ tx out s2 a s2' hs2)
      out.addresses s s' hs).1)
    (fun s out htok2 => foldlM_tracker_total _
      (fun s2 a s2' hs2 => (btcAddrStep_frame "bitcoin" network _ tx out s2 a s2' hs2).1)
      (fun s2 a htok3 => btcAddrStep_total "bitcoin" network _ tx out s2 a htok3)
      out.addresses s htok2 |>.elim (fun s' h => ⟨s', h.1⟩))
    tx.vout st htok
  refine ⟨st', hst', htok', ?_⟩
  exact (foldlM_tracker_frame _
    (fun s out s' hs => foldlM_tracker_frame _
      (fun s2 a s2' hs2 => btcAddrStep_frame "bitcoin" network _ tx out s2 a s2' hs2)
      out.addresses s s' hs)
    tx.vout st st' hst')

theorem processBtcTxs_run (network : String) : ∀ (txs : List BtcTx) (st : TrackerState),
    btcTokenPresent st = true →
    (processBtcTxs "bitcoin" network txs st).2 = false
    ∧ (processBtcTxs "bitcoin" network txs st).1.tokens = st.tokens
    ∧ (processBtcTxs "bitcoin" network txs st).1.settings = st.settings
    ∧ (processBtcTxs "bitcoin" network txs st).1.processedLog = st.processedLog
  | [], st => fun _ => ⟨Eq.refl _, Eq.refl _, Eq.refl _, Eq.refl _⟩
  | tx :: rest, st => by
    intro htok
    obtain ⟨st', hsome, htok', ht, hs, hl⟩ :=
      processBitcoinTransaction_total network tx st htok
    obtain ⟨ih1, ih2, ih3, ih4⟩ := processBtcTxs_run network rest st' htok'
    simp only [processBtcTxs, hsome]
    exact ⟨ih1, ih2.trans ht, ih3.trans hs, ih4.trans hl⟩

theorem runBtcHeights_characterize (network : String) (fetch : Nat → BtcFetch) :
    ∀ (hs : List Nat) (st : TrackerState),
    btcTokenPresent st = true →
    (∀ h ∈ hs, fetchNotErr fetch h = true) →
    (∀ h ∈ hs, fetchHeightOk fetch h = true) →
    (runBtcHeights network fetch hs st).processedLog
        = st.processedLog ++ hs.filter (fun h => isFound (fetch h))
    ∧ getLastProcessedBlockState "bitcoin" network (runBtcHeights network fetch hs st)
        = (hs.filter (fun h => isFound (fetch h))).foldl (fun _ h2 => h2)
            (getLastProcessedBlockState "bitcoin" network st)
  | [], st => by
    intro _ _ _
    constructor
    · simp [runBtcHeights]
    · simp [runBtcHeights, List.filter_nil]
  | h :: rest, st => by
    intro htok hne hho
    have hneh := hne h (List.mem_cons_self h rest)
    have hhoh := hho h (List.mem_cons_self h rest)
    have hner : ∀ h2 ∈ rest, fetchNotErr fetch h2 = true :=
      fun h2 hm => hne h2 (List.mem_cons_of_mem h hm)
    have hhor : ∀ h2 ∈ rest, fetchHeightOk fetch h2 = true :=
      fun h2 hm => hho h2 (List.mem_cons_of_mem h hm)
    cases hf : fetch h with
    | notFound =>
      have hfilter : (h :: rest).filter (fun h2 => isFound (fetch h2))
          = rest.filter (fun h2 => isFound (fetch h2)) := by
        rw [List.filter_cons]
        rw [hf]
        simp [isFound]
      obtain ⟨ih1, ih2⟩ := runBtcHeights_characterize network fetch rest st htok hner hhor
      rw [hfilter]
      constructor
      · simp only [runBtcHeights, hf]
        exact ih1
      · simp only [runBtcHeights, hf]
        exact ih2
    | fetchErr =>
      unfold fetchNotErr at hneh
      rw [hf] at hneh
      exact absurd hneh (by simp)
    | found b =>
      have hbh : b.height = h := by
        unfold fetchHeightOk at hhoh
        rw [hf] at hhoh
        dsimp only at hhoh
        simpa using hhoh
      obtain ⟨hrun1, hrun2, hrun3, hrun4⟩ := processBtcTxs_run network b.tx st htok
      have hpair : processBtcTxs "bitcoin" network b.tx st
          = ((processBtcTxs "bitcoin" network b.tx st).1, false) := by
        rw [← hrun1]
      have hfilter : (h :: rest).filter (fun h2 => isFound (fetch h2))
          = h :: rest.filter (fun h2 => isFound (fetch h2)) := by
        rw [List.filter_cons]
        rw [hf]
        simp [isFound]
      set st1 := (processBtcTxs "bitcoin" network b.tx st).1 with hst1
      set st2 := saveLastProcessedBlockState "bitcoin" network b.height st1 with hst2
      set st3 : TrackerState := { st2 with processedLog := st2.processedLog ++ [b.height] }
        with hst3
      have hred : runBtcHeights network fetch (h :: rest) st
          = runBtcHeights network fetch rest st3 := by
        simp only [runBtcHeights, hf, hpair]
      have htok3 : btcTokenPresent st3 = true := by
        unfold btcTokenPresent
        have : st3.tokens = st.tokens := hrun2
        rw [this]
        exact htok
      obtain ⟨ih1, ih2⟩ := runBtcHeights_characterize network fetch rest st3 htok3 hner hhor
      have hlog3 : st3.processedLog = st.processedLog ++ [h] := by
        show st2.processedLog ++ [b.height] = st.processedLog ++ [h]
        have : st2.processedLog = st.processedLog := hrun4
        rw [this, hbh]
      have hget3 : getLastProcessedBlockState "bitcoin" network st3 = h := by
        show getLastProcessedBlockState "bitcoin" network st2 = h
        rw [hst2, getLastProcessedBlockState_save, hbh]
      constructor
      · rw [hred, ih1, hlog3, hfilter, List.append_assoc]
        rfl
      · rw [hred, ih2, hget3, hfilter]
        rfl

/-- C5 (amended): in one Bitcoin tick, if no height throws a fetch error, a
not-found height is silently skipped — the run's processed log is exactly the
found heights, and the persisted checkpoint ends at the last found height
(so the checkpoint does advance past an unprocessed not-found height); a
thrown fetch error, in contrast, aborts the tick with no state change. -/
theorem btc_checkpoint_skips_unfetched_heights
    (network : String) (fetch : Nat → BtcFetch) (hs : List Nat) (st : TrackerState)
    (htok : btcTokenPresent st = true)
    (hne : ∀ h ∈ hs, fetchNotErr fetch h = true)
    (hho : ∀ h ∈ hs, fetchHeightOk fetch h = true) :
    ((runBtcHeights network fetch hs st).processedLog
        = st.processedLog ++ hs.filter (fun h => isFound (fetch h))
      ∧ getLastProcessedBlockState "bitcoin" network (runBtcHeights network fetch hs st)
        = (hs.filter (fun h => isFound (fetch h))).foldl (fun _ h2 => h2)
            (getLastProcessedBlockState "bitcoin" network st))
    ∧ (∀ (h2 : Nat) (rest : List Nat) (st2 : TrackerState),
        fetch h2 = BtcFetch.fetchErr →
        runBtcHeights network fetch (h2 :: rest) st2 = st2) := by
  refine ⟨runBtcHeights_characterize network fetch hs st htok hne hho, ?_⟩
  intro h2 rest st2 hf
  simp only [runBtcHeights, hf]

/-- The tick state of the C5 counterexample: checkpoint at 99, no wallets or
tokens (the found block carries no transactions, so none are needed). -/
def c5State : TrackerState :=
  { deposits := [], wallets := [], tokens := [], balances := [],
    settings := [("last_processed_block_btc_mainnet", "99")],
    credits := [], processedLog := [] }

/-- The C5 counterexample fetcher: height 100 is not found, height 101 is an
empty block, anything else throws. -/
def c5Fetch (h : Nat) : BtcFetch :=
  if h = 100 then BtcFetch.notFound
  else if h = 101 then BtcFetch.found { height := 101, hash := "b101", tx := [] }
  else BtcFetch.fetchErr

/-- C5 counterexample: with the checkpoint at 99 and the tip at 101, the block
at height 100 is not found, yet the tick ends with the checkpoint persisted at
101 — past the unprocessed height 100, which was never logged as processed. -/
theorem notfound_block_skipped_counterexample :
    c5Fetch 100 = BtcFetch.notFound
    ∧ getLastProcessedBlockState "bitcoin" "mainnet" c5State = 99
    ∧ getLastProcessedBlockState "bitcoin" "mainnet"
        (checkBitcoinBlocksModel "mainnet" c5Fetch 101 c5State) = 101
    ∧ (checkBitcoinBlocksModel "mainnet" c5Fetch 101 c5State).processedLog = [101] := by
  decide

def c5WitState : TrackerState :=
  { deposits := [], wallets := [], tokens := [c2BtcToken], balances := [],
    settings := [("last_processed_block_btc_mainnet", "99")],
    credits := [], processedLog := [] }

theorem btc_checkpoint_skips_unfetched_heights_witness :
    (runBtcHeights "mainnet" c5Fetch [100, 101] c5WitState).processedLog
        = c5WitState.processedLog
          ++ [100, 101].filter (fun h => isFound (c5Fetch h)) :=
  (btc_checkpoint_skips_unfetched_heights "mainnet" c5Fetch [100, 101] c5WitState
    (by decide) (by decide) (by decide)).1.1

/-- C6 (amended): every deposit row `processXrpTransaction` adds stores
`tx.Amount` verbatim — the raw drops string, not the human-decimal form
`specHumanDecimalAmount` that the spec's conversion step describes. -/
theorem xrp_amount_stored_verbatim (chain network : String) (tx : XrpTx)
    (st : TrackerState) (d : Deposit)
    (hd : d ∈ (processXrpTransaction chain network tx st).deposits) :
    d ∈ st.deposits ∨ d.amount = tx.Amount := by
  unfold processXrpTransaction at hd
  repeat' split at hd
  all_goals try simp only [] at hd
  all_goals repeat' split at hd
  all_goals first
    | exact Or.inl hd
    | (change d ∈ insertDeposit st.deposits _ at hd
       unfold insertDeposit at hd
       split at hd
       · exact Or.inl hd
       · rcases List.mem_append.mp hd with hl | hr
         · exact Or.inl hl
         · rw [List.mem_singleton] at hr
           subst hr
           exact Or.inr (Eq.refl _))

def c6Wallet : Wallet :=
  { id := "w6", userId := "u6", address := "rDest1",
    blockchain := "xrp", network := "mainnet" }

def c6Token : Token :=
  { id := "tXrp", symbol := "XRP", baseSymbol := some "XRP",
    blockchain := "xrp", contractAddress := none,
    networkVersion := "NATIVE", decimals := 6, isActive := true }

/-- An XRP Payment of 1 XRP: `Amount` is `"1000000"` drops. -/
def c6Tx : XrpTx :=
  { TransactionType := "Payment", Account := "rFrom1", Destination := "rDest1",
    Amount := "1000000", hash := "XH6", ledger_index := some 500,
    ledger_hash := "LH6" }

def c6State : TrackerState :=
  { deposits := [], wallets := [c6Wallet], tokens := [c6Token], balances := [],
    settings := [], credits := [], processedLog := [] }

/-- C6 counterexample: the stored amount of a 1-XRP Payment is the drops
string `"1000000"`, while the spec's human-decimal conversion at
`decimals = 6` yields `"1.0"`. -/
theorem xrp_amount_not_human_decimal :
    (processXrpTransaction "xrp" "mainnet" c6Tx c6State).deposits
      = [mkXrpDeposit "xrp" "mainnet" c6Tx c6Wallet "tXrp" 0]
    ∧ (mkXrpDeposit "xrp" "mainnet" c6Tx c6Wallet "tXrp" 0).amount = "1000000"
    ∧ specHumanDecimalAmount 1000000 6 = "1.0"
    ∧ ("1000000" : String) ≠ "1.0" := by
  decide

theorem xrp_amount_stored_verbatim_witness :
    mkXrpDeposit "xrp" "mainnet" c6Tx c6Wallet "tXrp" 0 ∈ c6State.deposits
    ∨ (mkXrpDeposit "xrp" "mainnet" c6Tx c6Wallet "tXrp" 0).amount = c6Tx.Amount :=
  xrp_amount_stored_verbatim "xrp" "mainnet" c6Tx c6State
    (mkXrpDeposit "xrp" "mainnet" c6Tx c6Wallet "tXrp" 0) (by decide)

/-- C8 counterexample: with the checkpoint at 0 and the tip at 100, one Tron
tick attempts the six heights 1..6 — `endBlock = min(startBlock + 5,
current)` inclusive gives up to 6 blocks, not at most 5. -/
theorem tron_tick_exceeds_five :
    tronTickHeights 0 100 = [1, 2, 3, 4, 5, 6]
    ∧ (tronTickHeights 0 100).length = 6
    ∧ ¬((tronTickHeights 0 100).length ≤ 5) := by
  decide

/-- C8 (amended): one Tron tick attempts `min (gap, 6)` blocks (not at most
5), and each Bitcoin batch window spans at most 50 heights, exactly 50 except
possibly the final window ending at the tip. -/
theorem tick_batch_window_sizes :
    (∀ last current : Nat,
      (tronTickHeights last current).length = min (current - last) 6)
    ∧ (∀ last current : Nat, ∀ w ∈ btcWindows last current,
        w.2 + 1 - w.1 ≤ 50 ∧ (w.2 ≠ current → w.2 + 1 - w.1 = 50)) := by
  constructor
  · intro last current
    unfold tronTickHeights
    rw [List.length_range']
    omega
  · intro last current w hw
    unfold btcWindows at hw
    rw [List.mem_map] at hw
    obtain ⟨h, hmem, hw⟩ := hw
    subst hw
    dsimp only
    constructor
    · omega
    · intro hne
      omega

theorem tick_batch_window_sizes_witness :
    (tronTickHeights 0 100).length = min (100 - 0) 6
    ∧ ((1, 50) : Nat × Nat).2 + 1 - ((1, 50) : Nat × Nat).1 ≤ 50
    ∧ (((1, 50) : Nat × Nat).2 ≠ 99
        → ((1, 50) : Nat × Nat).2 + 1 - ((1, 50) : Nat × Nat).1 = 50) :=
  ⟨tick_batch_window_sizes.1 0 100,
   (tick_batch_window_sizes.2 0 99 (1, 50) (by decide)).1,
   (tick_batch_window_sizes.2 0 99 (1, 50) (by decide)).2⟩
